import Mathlib

/-!
# Verification of the chessless worst-move engine core

Shallow embedding of the search-and-evaluation subsystem of the
`chessless` repository (worst-move chess engine).  The chess rules
engine (python-chess) is the external Board Adapter collaborator: its
answers (legal-move lists, terminal flags, attack bitboards, the
apply/undo transition) are modelled as oracle data carried by abstract
position values, exactly as the specification's §6 interface contract
describes.  Everything the repository itself computes — the engine
facade (`src/worst_engine.py`), the evaluator dispatch and caches
(`src/evaluator.py`, `src/fast_evaluator.py`), move ordering
(`src/move_ordering.py`, `src/fast_move_order.py`), and the two search
stacks (`src/search.py`, `src/fast_search.py`) — is translated
function by function.

Python floats are modelled by `ExtQ` (rationals extended with the two
infinities `float("inf")` / `float("-inf")`); every constant appearing
in the sources is an integer, so no rounding is lost.  Python `dict`s
become insertion-ordered association lists.  Wall-clock timeouts are
modelled by an oracle schedule `Nat → Bool` consulted by a counter, one
tick per `is_timeout`/`_check_time` poll, matching the poll-based
cancellation model of spec §5.  Recursions whose termination rests on
chess-specific finiteness (quiescence capture chains, SEE) take an
explicit fuel argument; all theorems hold for every fuel value.
The thread pool used at the root of `search.py` is serialised: futures
are evaluated in submission order (the single-threaded reference
semantics of spec §5); the shared-table interleavings it would allow
are outside this embedding.
-/

namespace Chessless

/-- A chess move as python-chess represents it: origin square,
destination square, optional promotion piece type.  Equality of
`chess.Move` compares exactly these components (the `drop` component is
always absent in standard chess). -/
structure Move where
  fromSq : Nat
  toSq : Nat
  promo : Option Nat
deriving DecidableEq, Repr

/-- Python truthiness of a `chess.Move`: `Move.__bool__` is
`bool(from_square or to_square or promotion)`, so only the null move
(0, 0, no promotion) is falsy. -/
def Move.truthy (m : Move) : Bool :=
  !(m.fromSq == 0 && m.toSq == 0 && m.promo == none)

/-- Python truthiness of an `Optional[chess.Move]`. -/
def optTruthy : Option Move → Bool
  | none => false
  | some m => m.truthy

/-- Python floats as used by the engine: finite values are exact
rationals, plus `float("inf")` and `float("-inf")`. -/
inductive ExtQ where
  | ninf
  | fin (q : ℚ)
  | inf
deriving DecidableEq, Repr

namespace ExtQ

/-- `≤` on extended rationals, as a boolean. -/
def le : ExtQ → ExtQ → Bool
  | ninf, _ => true
  | _, inf => true
  | fin a, fin b => a ≤ b
  | inf, fin _ => false
  | inf, ninf => false
  | fin _, ninf => false

/-- `<` on extended rationals. -/
def lt (a b : ExtQ) : Bool := !(le b a)

/-- Negation (swaps the infinities). -/
def neg : ExtQ → ExtQ
  | ninf => inf
  | fin q => fin (-q)
  | inf => ninf

/-- Python `min(a, b)`: returns the first argument when they are equal. -/
def min2 (a b : ExtQ) : ExtQ := if le a b then a else b

/-- Python `min(list)` for a nonempty list: folds from the head, so the
first minimal element wins ties. -/
def listMin (x : ExtQ) (xs : List ExtQ) : ExtQ := xs.foldl min2 x

end ExtQ

/-- Insertion-ordered dictionary lookup (`key in d` / `d[key]`): first
matching entry. -/
def dictFind {V : Type} (d : List (Nat × V)) (k : Nat) : Option V :=
  match d with
  | [] => none
  | (k', v) :: rest => if k' = k then some v else dictFind rest k

/-- Insertion-ordered dictionary update `d[key] = v`: replaces the first
existing slot for the key, otherwise appends (python dicts keep
insertion order). -/
def dictSet {V : Type} (d : List (Nat × V)) (k : Nat) (v : V) : List (Nat × V) :=
  match d with
  | [] => [(k, v)]
  | (k', v') :: rest => if k' = k then (k, v) :: rest else (k', v') :: dictSet rest k v

/-! ## Engine facade — `WorstEngine.get_worst_move` (src/worst_engine.py)

The facade consults the board only through `list(board.legal_moves)`
(the search operates on copies of the position, so the list is the same
each time it is taken) and otherwise combines the search's outcome with
its own `last_move` state.  The search call either produces an
`Optional[chess.Move]` together with a score, or raises; both outcomes
are the `searchOutcome` argument.  The two lines that trim
`evaluator.position_history` mutate only that history table and cannot
affect the returned move; the history is not part of the result we
track. -/

/-- Result of one facade call: the returned move, the updated
`self.last_move`, and whether `self.search.get_worst_move` was invoked
on this path (instrumentation recording that the source line executed). -/
structure FacadeResult where
  result : Option Move
  lastMove : Option Move
  searchInvoked : Bool
deriving DecidableEq, Repr

/-- The defensive validation
`if move and not move in board.legal_moves: move = list(board.legal_moves)[0]`
(src/worst_engine.py lines 34-36); `l0` is the head of the (nonempty)
legal-move list. -/
def weValidate (legal : List Move) (l0 : Move) (move0 : Option Move) : Option Move :=
  match move0 with
  | none => none
  | some m => if m.truthy && !(decide (m ∈ legal)) then some l0 else some m

/-- The anti-shuffle guard (src/worst_engine.py lines 39-48): when the
candidate exactly reverses the previous move and more than one legal
move exists, remove it and take the first remaining legal move. -/
def weShuffleGuard (legal : List Move) (last : Option Move) (move1 : Option Move) :
    Option Move :=
  match last, move1 with
  | some lm, some m =>
    if lm.truthy && m.truthy then
      if m.fromSq = lm.toSq && m.toSq = lm.fromSq then
        if legal.length > 1 then (legal.erase m).head?
        else some m
      else some m
    else some m
  | _, m1 => m1

/-- The final legality check and fallback (src/worst_engine.py lines
50-57): a truthy, still-legal move is returned and recorded as
`self.last_move`; anything else degrades to the first legal move. -/
def weFinalize (legal : List Move) (l0 : Move) (last : Option Move) (move2 : Option Move) :
    FacadeResult :=
  match move2 with
  | some m =>
    if m.truthy then
      if m ∈ legal then ⟨some m, some m, true⟩
      else ⟨some l0, last, true⟩
    else ⟨some l0, last, true⟩
  | none => ⟨some l0, last, true⟩

/-- `WorstEngine.get_worst_move` from `src/worst_engine.py`, line by
line.  `legal` is `list(board.legal_moves)`, `last` is
`self.last_move`, and `searchOutcome` is what
`self.search.get_worst_move(board, self.depth)` did (`Except.error` =
any exception reaching the facade's `try`). -/
def weGetWorstMove (legal : List Move) (last : Option Move)
    (searchOutcome : Except Unit (Option Move × ExtQ)) : FacadeResult :=
  match legal with
  | [] => ⟨none, last, false⟩
  | l0 :: _ =>
    match searchOutcome with
    | .error _ =>
      -- except branch: `moves = list(board.legal_moves); return moves[0] if moves else None`
      ⟨some l0, last, true⟩
    | .ok (move0, _score) =>
      weFinalize legal l0 last (weShuffleGuard legal last (weValidate legal l0 move0))

/-! ## Position evaluator — `Evaluator.evaluate_position` (src/evaluator.py)

The evaluator consults the board only through python-chess queries and
through the bitboard helpers of `src/bitboards.py`, every one of which
is a pure read of the position.  An `EBoard` therefore carries, as
oracle data, the terminal flags, the side to move, the FEN fingerprint,
and the value each private heuristic method computes at this position
(each `_*_bb(board, us)` method with `us = board.turn`).  The weighted
combination of those terms, the terminal dispatch, and the cache
discipline are the repository's own code and are translated exactly. -/

structure EBoard where
  isCheckmate : Bool
  isStalemate : Bool
  canClaimThreefold : Bool
  isRepetition : Bool
  canClaimDraw : Bool
  /-- Side to move; `true` is `chess.WHITE`. -/
  turn : Bool
  /-- `board.fen()`, the cache key (FEN strings coded as naturals). -/
  fen : Nat
  materialBB : ℚ
  mobilityBB : ℚ
  hangingPenalty : ℚ
  kingDanger : ℚ
  badPawnStructure : ℚ
  centerControl : ℚ
  undeveloped : ℚ
  kingInCenterPenalty : ℚ
  piecesOnBackRank : ℚ
  weakenedKingShield : ℚ
  piecesOnRim : ℚ
  theirPiecesOnRim : ℚ
  queenOnGoodSquare : ℚ
  rooksOnOpenFile : ℚ
  blockedPieces : ℚ
  ourPiecesInCenter : ℚ
  pinnedBonus : ℚ
  passedPawnPenalty : ℚ
  backwardPawnBonus : ℚ
  bishopPairPenalty : ℚ
  rookOnSeventh : ℚ
  pstScore : ℚ
  inCheckBonus : ℚ
  trappedPiece : ℚ
  exposedKing : ℚ
  noEscape : ℚ

/-- The weighted sum computed at `src/evaluator.py` lines 63-90
(weights `0.8 = 4/5`, `3.5 = 7/2`, `2.0 = 2` are exact). -/
def heuristicScore (b : EBoard) : ℚ :=
  b.materialBB
    + b.mobilityBB * (4 / 5)
    - b.hangingPenalty * 45
    - b.kingDanger * 35
    - b.badPawnStructure * 20
    - b.centerControl * 25
    - b.undeveloped * 12
    - b.kingInCenterPenalty * 22
    - b.piecesOnBackRank * 8
    - b.weakenedKingShield * 30
    - b.piecesOnRim * (7 / 2)
    + b.theirPiecesOnRim * 2
    - b.queenOnGoodSquare * 6
    - b.rooksOnOpenFile * 3
    - b.blockedPieces * 3
    - b.ourPiecesInCenter * 4
    + b.pinnedBonus * 4
    - b.passedPawnPenalty * 3
    + b.backwardPawnBonus * 3
    - b.bishopPairPenalty * 3
    - b.rookOnSeventh * 3
    + b.pstScore * 3
    + b.inCheckBonus * 2
    + b.trappedPiece
    + b.exposedKing
    + b.noEscape

/-- `self.max_cache_size` of `Evaluator`. -/
def evalMaxCacheSize : Nat := 100000

/-- The four terminal tests of `evaluate_position`, in source order. -/
def EBoard.terminal (b : EBoard) : Bool :=
  b.isCheckmate || b.isStalemate || (b.canClaimThreefold || b.isRepetition) || b.canClaimDraw

/-- `Evaluator.evaluate_position` (src/evaluator.py lines 48-94): the
terminal dispatch, then the `self._cache` lookup keyed by
`board.fen()`, then the heuristic sum with full-clear eviction before
the store.  The evaluator state is the cache. -/
def evaluatePosition (cache : List (Nat × ℚ)) (b : EBoard) : ℚ × List (Nat × ℚ) :=
  if b.isCheckmate then ((if b.turn then -50000 else 50000), cache)
  else if b.isStalemate then (25000, cache)
  else if b.canClaimThreefold || b.isRepetition then
    ((if b.turn then 20000 else -20000), cache)
  else if b.canClaimDraw then (15000, cache)
  else
    match dictFind cache b.fen with
    | some v => (v, cache)
    | none =>
      let score := heuristicScore b
      let cache' := if cache.length ≥ evalMaxCacheSize then [] else cache
      (score, dictSet cache' b.fen score)

/-- `self._cache.clear()` on an evaluator. -/
def clearEvalCache (_cache : List (Nat × ℚ)) : List (Nat × ℚ) := []

/-- Folding `evaluate_position` over a sequence of boards, starting
from a given cache: the cache an evaluator instance has after
evaluating those positions in order. -/
def evalTrace (cache : List (Nat × ℚ)) : List EBoard → List (Nat × ℚ)
  | [] => cache
  | b :: bs => evalTrace (evaluatePosition cache b).2 bs

/-! ## Fast evaluator — `FastEvaluator.evaluate` (src/fast_evaluator.py)

Same shape: terminal dispatch (without the repetition branch), cache
keyed by `board_key(board)`, `_fast_eval` otherwise.  The quantities
`_fast_eval` reads off the board are oracle fields. -/

structure FBoard where
  isCheckmate : Bool
  isStalemate : Bool
  canClaimDraw : Bool
  turn : Bool
  /-- `board_key(board)` (src/fast_tables.py). -/
  key : Nat
  /-- `fast_material(board)` — signed, already from the mover's side. -/
  material : ℚ
  /-- `board.king(us) is not None`. -/
  kingPresent : Bool
  kingAttackers : Nat
  kingEscapeBad : Nat
  hangingCount : Nat
  shieldMissing : Nat
  backrankNonKing : Nat
  centerNonKing : Nat
  rimNonKing : Nat
  bishopPair : Bool
  isCheck : Bool
  legalCount : Nat
  defendersCount : Nat

/-- `FastEvaluator._fast_eval` (src/fast_evaluator.py lines 45-104). -/
def fastEvalScore (b : FBoard) : ℚ :=
  let s0 : ℚ := b.material
  let s1 := if b.kingPresent then s0 - b.kingAttackers * 1500 - b.kingEscapeBad * 300 else s0
  let s2 := s1 - b.hangingCount * 600
  let s3 := s2 - b.shieldMissing * 500
  let s4 := s3 - b.backrankNonKing * 100
  let s5 := s4 - b.centerNonKing * 300 + b.rimNonKing * 200
  let s6 := if b.bishopPair then s5 - 400 else s5
  let s7 := if b.isCheck then s6 - 800 else s6
  let s8 :=
    if b.legalCount ≤ 1 then s7 - 1500
    else if b.legalCount ≤ 3 then s7 - 800
    else if b.legalCount ≤ 5 then s7 - 300
    else s7
  s8 - b.defendersCount * 150

/-- `self.max_cache_size` of `FastEvaluator`. -/
def fastEvalMaxCacheSize : Nat := 50000

/-- The terminal tests of `FastEvaluator.evaluate`, in source order. -/
def FBoard.terminal (b : FBoard) : Bool :=
  b.isCheckmate || b.isStalemate || b.canClaimDraw

/-- `FastEvaluator.evaluate` (src/fast_evaluator.py lines 25-43). -/
def fastEvaluate (cache : List (Nat × ℚ)) (b : FBoard) : ℚ × List (Nat × ℚ) :=
  if b.isCheckmate then ((if b.turn then -50000 else 50000), cache)
  else if b.isStalemate then (25000, cache)
  else if b.canClaimDraw then (15000, cache)
  else
    match dictFind cache b.key with
    | some v => (v, cache)
    | none =>
      let score := fastEvalScore b
      let cache' := if cache.length ≥ fastEvalMaxCacheSize then [] else cache
      (score, dictSet cache' b.key score)

/-! ## Mutable board during move ordering

`score_move` provisionally applies moves on the shared board via
`board.push` / `board.pop`.  A `Position` is one immutable snapshot of
the Board Adapter's state together with its query answers (every query
used by the ordering code is a pure read); the mutable python-chess
board is a current position plus the undo stack (`board.move_stack`).
`board.push(move)` maps the current position through the adapter's
transition oracle `step` and saves the old one; `board.pop()` restores
the saved position — the python-chess apply/undo contract of spec §6. -/

/-- A piece as returned by `board.piece_at`: colour and piece type
(1 = pawn … 6 = king, python-chess numbering). -/
structure Piece where
  color : Bool
  pieceType : Nat
deriving DecidableEq, Repr

/-- One snapshot of the Board Adapter state, with its query answers. -/
structure Position where
  isCheckmate : Bool
  isStalemate : Bool
  canClaimThreefold : Bool
  isRepetition : Bool
  isCheck : Bool
  canClaimDraw : Bool
  turn : Bool
  fen : Nat
  legal : List Move
  pieceAt : Nat → Option Piece
  attackersMask : Bool → Nat → Nat
  attacksMask : Nat → Nat
  piecesMask : Nat → Bool → Nat
  occupiedCo : Bool → Nat
  occupied : Nat
  isCaptureQ : Move → Bool
  isCastlingQ : Move → Bool

/-- The adapter's transition: the position after pushing a move (also
used for the constructed, not necessarily legal, moves SEE pushes). -/
def Step : Type := Position → Move → Position

/-- The mutable board: current position plus the undo stack. -/
structure Bd where
  cur : Position
  hist : List Position

/-- `board.push(move)`. -/
def bdPush (step : Step) (b : Bd) (m : Move) : Bd :=
  ⟨step b.cur m, b.cur :: b.hist⟩

/-- `board.pop()` (on an empty stack python-chess raises; the sources
never pop an empty stack, and the identity keeps the model total). -/
def bdPop (b : Bd) : Bd :=
  match b.hist with
  | [] => b
  | p :: rest => ⟨p, rest⟩

/-- `popcount` (src/bitboards.py): number of set bits. -/
def popcount (n : Nat) : Nat :=
  if n = 0 then 0 else n % 2 + popcount (n / 2)
decreasing_by exact Nat.div_lt_self (Nat.pos_of_ne_zero (by assumption)) one_lt_two

/-- `square_bb` (src/bitboards.py). -/
def squareBB (sq : Nat) : Nat := 2 ^ sq

/-- `chess.square_file`. -/
def squareFile (sq : Nat) : Nat := sq % 8

/-- `chess.square_rank`. -/
def squareRank (sq : Nat) : Nat := sq / 8

/-- `our_pieces_bb` (src/bitboards.py): union of `pieces_mask` over the
six piece types. -/
def ourPiecesBB (p : Position) (c : Bool) : Nat :=
  (List.range 6).foldl (fun bb i => bb ||| p.piecesMask (i + 1) c) 0

/-- `their_attacks_bb` (src/bitboards.py): union of `attacks_mask` over
all squares holding a piece of the colour. -/
def theirAttacksBB (p : Position) (c : Bool) : Nat :=
  (List.range 64).foldl
    (fun acc sq =>
      match p.pieceAt sq with
      | some pc => if pc.color = c then acc ||| p.attacksMask sq else acc
      | none => acc) 0

/-- `hanging_bb` (src/bitboards.py): our pieces attacked by them and
not defended by us. -/
def hangingBB (p : Position) (us : Bool) : Nat :=
  let them := !us
  let ourBB := ourPiecesBB p us
  (List.range 64).foldl
    (fun acc sq =>
      if ourBB &&& squareBB sq ≠ 0 then
        if p.attackersMask them sq ≠ 0 && p.attackersMask us sq = 0 then
          acc ||| squareBB sq
        else acc
      else acc) 0

/-- Move-ordering piece values (`PIECE_VALUES` of src/move_ordering.py,
`PIECE_VALUES_LIGHT` of src/engine.py): pawn 1, knight 3, bishop 3,
rook 5, queen 9, king 0; `get_piece_value` defaults to 0. -/
def pieceValueLight (pt : Nat) : ℚ :=
  if pt = 1 then 1 else if pt = 2 then 3 else if pt = 3 then 3
  else if pt = 4 then 5 else if pt = 5 then 9 else 0

/-- `_SEE_VALUES` / `_see_piece_value` (src/bitboards.py) on an
optional piece. -/
def seePieceValue : Option Piece → ℚ
  | none => 0
  | some p =>
    if p.pieceType = 1 then 100 else if p.pieceType = 2 then 320
    else if p.pieceType = 3 then 330 else if p.pieceType = 4 then 500
    else if p.pieceType = 5 then 900 else 0

/-- Stable insertion into an ascending list: equal keys keep their
existing order (the element being inserted arrived later). -/
def insByKey {α : Type} (key : α → ℚ) (x : α) : List α → List α
  | [] => [x]
  | y :: ys => if key x < key y then x :: y :: ys else y :: insByKey key x ys

/-- Stable ascending sort by key — the semantics of python's
`list.sort(key=...)` (Timsort is stable; a stable ascending sort's
output is unique, so insertion sort matches it exactly). -/
def stableSortByKey {α : Type} (key : α → ℚ) (l : List α) : List α :=
  l.foldl (fun acc x => insByKey key x acc) []

/-- `_see_square` (src/bitboards.py lines 168-184): max gain for
`color` capturing on `sq`, recursing through the exchange.  The python
recursion terminates through chess-specific finiteness; `fuel` bounds
the recursion depth and every theorem below holds for all fuel values
(fuel exhaustion yields the 0 of the no-attackers base case). -/
def seeSquare (step : Step) : Nat → Bd → Nat → Bool → ℚ × Bd
  | 0, b, _, _ => (0, b)
  | fuel + 1, b, sq, color =>
    let sqBB := squareBB sq
    let attackers : List (ℚ × Nat) :=
      (List.range 64).filterMap fun s =>
        match b.cur.pieceAt s with
        | some p =>
          if p.color = color && b.cur.attacksMask s &&& sqBB ≠ 0 then
            some (seePieceValue (some p), s)
          else none
        | none => none
    match stableSortByKey (fun x => x.1) attackers with
    | [] => (0, b)
    | (valueSmallest, fromSq) :: _ =>
      let victimVal := seePieceValue (b.cur.pieceAt sq)
      let b1 := bdPush step b ⟨fromSq, sq, none⟩
      let r := seeSquare step fuel b1 fromSq (!color)
      (victimVal - valueSmallest - r.1, bdPop r.2)

/-- `see_capture` (src/bitboards.py lines 147-165). -/
def seeCapture (step : Step) (fuel : Nat) (b : Bd) (m : Move) : ℚ × Bd :=
  if !b.cur.isCaptureQ m then (0, b)
  else
    match b.cur.pieceAt m.toSq, b.cur.pieceAt m.fromSq with
    | some victim, some piece =>
      let vVictim := seePieceValue (some victim)
      let vPiece := seePieceValue (some piece)
      let b1 := bdPush step b m
      let r := seeSquare step fuel b1 m.toSq (!piece.color)
      (vVictim - vPiece - r.1, bdPop r.2)
    | _, _ => (0, b)

/-! ## Move ordering — `score_move` / `order_moves` (src/move_ordering.py) -/

/-- `BB_KING_SHIELD_WHITE` (e2, d2, f2). -/
def BB_KING_SHIELD_WHITE : Nat := squareBB 12 ||| squareBB 11 ||| squareBB 13

/-- `BB_KING_SHIELD_BLACK` (e7, d7, f7). -/
def BB_KING_SHIELD_BLACK : Nat := squareBB 52 ||| squareBB 51 ||| squareBB 53

/-- `chess.BB_RANK_1`. -/
def BB_RANK_1 : Nat := 0xFF

/-- `chess.BB_RANK_8`. -/
def BB_RANK_8 : Nat := 0xFF <<< 56

/-- The hanging-piece scan of `score_move` (src/move_ordering.py lines
59-71), on the position after our move: accumulated score delta. -/
def moHangingScan (p1 : Position) (us : Bool) : ℚ :=
  let hanging := hangingBB p1 us
  (List.range 64).foldl
    (fun s sq =>
      if hanging &&& squareBB sq ≠ 0 then
        match p1.pieceAt sq with
        | some p =>
          let bonus := pieceValueLight p.pieceType * 400 +
            (if p.pieceType = 5 then 25000 else if p.pieceType = 4 then 12000 else 0)
          s - bonus
        | none => s
      else s) 0

/-- The mate-in-1 scan of `score_move` (src/move_ordering.py lines
73-80): push each opponent reply, test checkmate, pop; break at the
first mate.  Returns whether a mate was found and the board state. -/
def moAllowsMateLoop (step : Step) (b : Bd) : List Move → Bool × Bd
  | [] => (false, b)
  | om :: rest =>
    let b1 := bdPush step b om
    if b1.cur.isCheckmate then (true, bdPop b1)
    else moAllowsMateLoop step (bdPop b1) rest

/-- The `our_defended` set of `score_move` (src/move_ordering.py lines
82-88), computed on the restored board. -/
def moOurDefended (pos : Position) (us : Bool) : List Nat :=
  (List.range 64).filter fun sq =>
    match pos.pieceAt sq with
    | some p =>
      p.color == us && p.pieceType ≠ 6 &&
        pos.attackersMask us sq ≠ 0 && (pos.attackersMask us sq &&& squareBB sq) == 0
    | none => false

/-- The blocking-our-own-piece scan of `score_move`
(src/move_ordering.py lines 117-127), on the position after our move. -/
def moBlockingScan (p4 : Position) (us : Bool) (toSq : Nat) : ℚ :=
  let ourBB := ourPiecesBB p4 us
  (List.range 64).foldl
    (fun s sq =>
      if sq = toSq then s
      else if ourBB &&& squareBB sq ≠ 0 then
        match p4.pieceAt sq with
        | some p =>
          if p.pieceType ≠ 1 ∧ (p4.attacksMask sq &&& squareBB toSq) ≠ 0 then s - 1100 else s
        | none => s
      else s) 0

/-- `score_move` (src/move_ordering.py lines 34-173), translated
accumulator by accumulator.  The two `board.push(move)` … `board.pop()`
blocks and the SEE call thread the mutable board through the result. -/
def moScoreMove (step : Step) (fuel : Nat) (b : Bd) (m : Move) : ℚ × Bd :=
  let pos := b.cur
  let us := pos.turn
  let them := !us
  let fromSq := m.fromSq
  let toSq := m.toSq
  let toBB := squareBB toSq
  let fromBB := squareBB fromSq
  let movingPiece := pos.pieceAt fromSq
  -- first push block: terminal flags, hanging pieces, mate-in-1 scan
  let b1 := bdPush step b m
  let p1 := b1.cur
  let s1 : ℚ :=
    (if p1.isCheckmate then -200000 else 0)
      + (if p1.isStalemate then 150000 else 0)
      + (if p1.canClaimThreefold || p1.isRepetition then 120000 else 0)
      + (if p1.isCheck then -15000 else 0)
      + (if p1.canClaimDraw then 100000 else 0)
      + moHangingScan p1 us
  let mateScan := if !p1.isCheckmate then moAllowsMateLoop step b1 p1.legal else (false, b1)
  let s2 := s1 + (if mateScan.1 then -180000 else 0)
  let b2 := bdPop mateScan.2
  -- back on the original position: defended-piece and SEE heuristics
  let ourDefended := moOurDefended b2.cur us
  let s3 := s2 +
    (match movingPiece with
     | some mp =>
       if fromSq ∈ ourDefended then -(8000 + pieceValueLight mp.pieceType * 300) else 0
     | none => 0)
  let seeRes := seeCapture step fuel b2 m
  let b3 := seeRes.2
  let s4 := s3 + seeRes.1 * 7
  let s5 := s4 +
    (if b3.cur.isCaptureQ m then
      match movingPiece, b3.cur.pieceAt toSq with
      | some mp, some cp =>
        let mv := pieceValueLight mp.pieceType
        let cv := pieceValueLight cp.pieceType
        if cv > mv then -14000 else if cv = mv then -2000 else 3000
      | _, _ => 0
    else 0)
  -- second push block: sitting on an attacked square, blocking our pieces
  let b4 := bdPush step b3 m
  let p4 := b4.cur
  let theirAtt := theirAttacksBB p4 them
  let s6 := s5 +
    (if toBB &&& theirAtt ≠ 0 then
      match movingPiece with
      | some mp =>
        let defThem := popcount (p4.attackersMask them toSq)
        let defUs := popcount (p4.attackersMask us toSq)
        if defUs = 0 ∨ defThem > defUs then -(5500 + pieceValueLight mp.pieceType * 220) else 0
      | none => 0
    else 0)
  let s7 := s6 + moBlockingScan p4 us toSq
  let b5 := bdPop b4
  -- static heuristics on the restored board
  let s8 := s7 +
    (match movingPiece with
     | some mp =>
       (if mp.pieceType = 1 ∧
           fromBB &&& (if us then BB_KING_SHIELD_WHITE else BB_KING_SHIELD_BLACK) ≠ 0
        then -2200 else 0)
         + (if mp.pieceType = 6 then
             (if !b5.cur.isCastlingQ m then -2000 else 0)
               + (if squareFile toSq ∈ [2, 3, 4, 5] then -900 else 0)
           else 0)
         + (if mp.pieceType = 5 then
             (if squareFile toSq ∈ [0, 7] ∨ squareRank toSq ∈ [0, 7] then -1200 else 0)
               + (if toSq ∈ [0, 7, 56, 63] then -800 else 0)
           else 0)
         + (if mp.pieceType = 2 then
             (if squareFile toSq ∈ [0, 7] then -1100 else 0)
               + (if toSq ∈ [16, 23, 40, 47] then -900 else 0)
           else 0)
     | none => 0)
  let s9 := s8 + (if b5.cur.isCastlingQ m then 5500 else 0)
  let s10 := s9 +
    (match movingPiece with
     | some mp =>
       if fromBB &&& (if us then BB_RANK_1 else BB_RANK_8) ≠ 0 ∧
           (mp.pieceType = 2 ∨ mp.pieceType = 3)
       then 2200 else 0
     | none => 0)
  let s11 := s10 +
    (match movingPiece with
     | some _ =>
       (if toSq ∈ [0, 7, 56, 63, 8, 15, 48, 55] then -700 else 0)
         + (if squareFile toSq ∈ [0, 7] then -280 else 0)
     | none => 0)
  (s11, b5)

/-- The scoring comprehension of `order_moves`:
`[(score_move(board, m), m) for m in board.legal_moves]`, threading the
board (each `score_move` restores it before the generator resumes). -/
def moScoreAll (step : Step) (fuel : Nat) : Bd → List Move → List (ℚ × Move) × Bd
  | b, [] => ([], b)
  | b, m :: rest =>
    let r := moScoreMove step fuel b m
    let rr := moScoreAll step fuel r.2 rest
    ((r.1, m) :: rr.1, rr.2)

/-- `order_moves` (src/move_ordering.py lines 176-191): score each
legal move, apply killer and history adjustments, stable-sort
ascending.  `historyTable` empty models a falsy (`None`/empty)
`history_table` argument. -/
def moOrderMoves (step : Step) (fuel : Nat) (b : Bd)
    (historyTable : List (Nat × List (Move × ℚ)))
    (killerMoves : Option (Option Move × Option Move)) : List Move × Bd :=
  let sc := moScoreAll step fuel b b.cur.legal
  let b1 := sc.2
  let scored2 :=
    match killerMoves with
    | some (k1, k2) =>
      sc.1.map fun p => if some p.2 = k1 ∨ some p.2 = k2 then (p.1 - 7000, p.2) else p
    | none => sc.1
  let scored3 :=
    if historyTable ≠ [] then
      match dictFind historyTable b1.cur.fen with
      | some ht =>
        scored2.map fun p =>
          (p.1 + (((ht.find? fun q => q.1 = p.2).map Prod.snd).getD 0), p.2)
      | none => scored2
    else scored2
  ((stableSortByKey (fun p => p.1) scored3).map (fun p => p.2), b1)

/-! ## Consolidated module — `score_move` / `order_moves` /
`SearchEngine` (src/engine.py)

`src/engine.py` repeats the ordering heuristics with its own constants
and a single push/pop block, and builds the `SearchEngine` /
`WorstEngine` front end on top.  `Evaluator.evaluate` of that module is
modelled as a pure function of the position (`evalFn`); timeout polls
consume one tick of the schedule oracle. -/

/-- `score_move` (src/engine.py lines 186-292). -/
def enScoreMove (step : Step) (b : Bd) (m : Move) : ℚ × Bd :=
  let pos := b.cur
  let fromSq := m.fromSq
  let toSq := m.toSq
  match pos.pieceAt fromSq with
  | none => (0, b)
  | some movingPiece =>
    let us := pos.turn
    let them := !us
    let pt := movingPiece.pieceType
    let pv := pieceValueLight pt
    let toFile := squareFile toSq
    let toRank := squareRank toSq
    let s1 : ℚ :=
      if pt = 1 then
        (if squareBB fromSq &&& (if us then BB_KING_SHIELD_WHITE else BB_KING_SHIELD_BLACK) ≠ 0
         then -4000 else 0)
          + (if toFile ∈ [0, 7] then -1000 else 0)
      else if pt = 6 then
        (if !pos.isCastlingQ m then -4000 else 0)
          + (if toFile ∈ [2, 3, 4, 5] then -2000 else 0)
      else if pt = 5 then
        (if toFile ∈ [0, 7] ∨ toRank ∈ [0, 7] then -2500 else 0)
      else if pt = 2 then
        (if toFile ∈ [0, 7] then -2200 else 0)
          + (if toSq ∈ [16, 23, 40, 47] then -400 else 0)
      else if pt = 3 then
        (if toFile ∈ [0, 7] then -2000 else 0)
      else 0
    let s2 := s1 +
      (if squareBB fromSq &&& (if us then BB_RANK_1 else BB_RANK_8) ≠ 0 ∧ (pt = 2 ∨ pt = 3)
       then -4000 else 0)
    let s3 := s2 + (if pos.isCastlingQ m then -(10000 : ℚ) else 0)
    let s4 := s3 +
      (if toSq ∈ [0, 7, 56, 63, 8, 15, 48, 55] then -1500
       else if toFile ∈ [0, 7] then -500 else 0)
    let s5 := s4 +
      (if pos.isCaptureQ m then
        match pos.pieceAt toSq with
        | some cp =>
          let cv := pieceValueLight cp.pieceType
          if cv > pv then -25000 else if cv = pv then -8000 else 0
        | none => 0
      else 0)
    let b1 := bdPush step b m
    let p1 := b1.cur
    if p1.isCheckmate then (-300000, bdPop b1)
    else
      let s6 := s5 + (if p1.isCheck then -20000 else 0)
      let s7 := s6 + (if p1.isStalemate ∨ p1.canClaimDraw then 80000 else 0)
      let ourBB := p1.occupiedCo us
      let flags :=
        (List.range 64).foldl
          (fun (fl : Bool × Bool) sq =>
            if ourBB &&& squareBB sq ≠ 0 ∧
                p1.attackersMask them sq ≠ 0 ∧ p1.attackersMask us sq = 0 then
              match p1.pieceAt sq with
              | some p =>
                if p.pieceType = 5 then (true, fl.2)
                else if p.pieceType = 4 then (fl.1, true)
                else fl
              | none => fl
            else fl) (false, false)
      let s8 := s7 + (if flags.1 then -50000 else 0) + (if flags.2 then -25000 else 0)
      (s8, bdPop b1)

/-- The scoring comprehension of `order_moves` (src/engine.py). -/
def enScoreAll (step : Step) : Bd → List Move → List (ℚ × Move) × Bd
  | b, [] => ([], b)
  | b, m :: rest =>
    let r := enScoreMove step b m
    let rr := enScoreAll step r.2 rest
    ((r.1, m) :: rr.1, rr.2)

/-- `order_moves` (src/engine.py lines 295-305); the killer argument is
python-truthy only for a non-null move. -/
def enOrderMoves (step : Step) (b : Bd) (killer : Option Move) : List Move × Bd :=
  let sc := enScoreAll step b b.cur.legal
  let scored2 :=
    match killer with
    | some k =>
      if k.truthy then sc.1.map fun p => if p.2 = k then (p.1 - 15000, p.2) else p
      else sc.1
    | none => sc.1
  ((stableSortByKey (fun p => p.1) scored2).map (fun p => p.2), sc.2)

/-- The inner loop of `SearchEngine._search` (src/engine.py lines
415-422): timeout poll per move, push / negate / pop, keep the max.
`f` is the recursive `_search` at the decremented depth. -/
def seSearchLoop (step : Step) (sched : Nat → Bool) (f : Bd → Nat → ℚ × Bd × Nat) :
    List Move → Bd → Nat → ℚ → ℚ × Bd × Nat
  | [], b, clock, best => (best, b, clock)
  | m :: rest, b, clock, best =>
    if sched clock then (best, b, clock + 1)
    else
      let b1 := bdPush step b m
      let r := f b1 (clock + 1)
      let score := -r.1
      let b3 := bdPop r.2.1
      seSearchLoop step sched f rest b3 r.2.2 (if score > best then score else best)

/-- `SearchEngine._search` (src/engine.py lines 401-424), by recursion
on the remaining depth.  `selfDepth` is `self.depth`. -/
def seSearch (step : Step) (evalFn : Position → ℚ) (sched : Nat → Bool) (selfDepth : Nat) :
    Nat → Bd → Nat → ℚ × Bd × Nat
  | 0, b, clock =>
    -- `if self._is_timeout() or depth <= 0: return self.evaluator.evaluate(board)`
    (evalFn b.cur, b, clock + 1)
  | depth + 1, b, clock =>
    if sched clock then (evalFn b.cur, b, clock + 1)
    else if b.cur.legal = [] then
      ((if b.cur.isCheck then -50000 else 15000), b, clock + 1)
    else
      let ord := enOrderMoves step b none
      let numMoves := max 2 (5 - (selfDepth - (depth + 1)))
      seSearchLoop step sched (seSearch step evalFn sched selfDepth depth)
        (ord.1.take numMoves) ord.2 (clock + 1) (-1000000000)

/-- The immediate-mate scan of `SearchEngine.get_worst_move`
(src/engine.py lines 374-380). -/
def seMateScan (step : Step) (b : Bd) : List Move → Option Move × Bd
  | [] => (none, b)
  | m :: rest =>
    let b1 := bdPush step b m
    if b1.cur.isCheckmate then (some m, bdPop b1)
    else seMateScan step (bdPop b1) rest

/-- The root evaluation loop of `SearchEngine.get_worst_move`
(src/engine.py lines 388-397): strict improvement, so the
first-evaluated move wins ties. -/
def seRootLoop (step : Step) (sched : Nat → Bool) (f : Bd → Nat → ℚ × Bd × Nat) :
    List Move → Bd → Nat → Move → ExtQ → Move × Bd × Nat
  | [], b, clock, bestM, _ => (bestM, b, clock)
  | m :: rest, b, clock, bestM, bestS =>
    if sched clock then (bestM, b, clock + 1)
    else
      let b1 := bdPush step b m
      let r := f b1 (clock + 1)
      let score := -r.1
      let b3 := bdPop r.2.1
      if (ExtQ.fin score).lt bestS then
        seRootLoop step sched f rest b3 r.2.2 m (ExtQ.fin score)
      else
        seRootLoop step sched f rest b3 r.2.2 bestM bestS

/-- Result of `SearchEngine.get_worst_move`: the chosen move, final
board and clock, and whether the engine went past the degenerate-case
shortcuts into ordering/search (instrumentation). -/
structure SeResult where
  move : Option Move
  board : Bd
  clock : Nat
  invoked : Bool

/-- `SearchEngine.get_worst_move` (src/engine.py lines 363-399);
`selfDepth0` is the constructor argument (`self.depth = min(depth, 5)`). -/
def seGetWorstMove (step : Step) (evalFn : Position → ℚ) (sched : Nat → Bool)
    (selfDepth0 : Nat) (b : Bd) (clock : Nat) : SeResult :=
  let selfDepth := min selfDepth0 5
  match b.cur.legal with
  | [] => ⟨none, b, clock, false⟩
  | [m] => ⟨some m, b, clock, false⟩
  | _ :: _ :: _ =>
    let ord := enOrderMoves step b none
    match seMateScan step ord.2 ord.1 with
    | (some mv, b2) => ⟨some mv, b2, clock, true⟩
    | (none, b2) =>
      match ord.1 with
      | [] => ⟨none, b2, clock, true⟩   -- unreachable: ordering permutes a nonempty list
      | o0 :: _ =>
        let numMoves := max 4 (8 - selfDepth)
        let r := seRootLoop step sched
          (seSearch step evalFn sched selfDepth (selfDepth - 1))
          (ord.1.take numMoves) b2 clock o0 ExtQ.inf
        ⟨some r.1, r.2.1, r.2.2, true⟩

/-! ## Fast search — `FastWorstSearch` (src/fast_search.py)

The search explores the game tree the Board Adapter induces: a node
carries the position's `board_key` fingerprint, its check flag, the
`FastEvaluator.evaluate` value (a pure function of the position: the
evaluator cache, proved sound below, never changes it), and one entry
per legal move — the move, its capture flag, its `ultra_score_move`
value (a pure read of this position), and the successor node.
`board.push`/`board.pop` around a recursive call becomes recursion into
the successor.  Children are listed in `board.legal_moves` order. -/

inductive FTree where
  | node (key : Nat) (isCheck : Bool) (evalScore : ℚ)
      (children : List (Move × Bool × ℚ × FTree))

/-- `board_key(board)` at this node. -/
def FTree.key : FTree → Nat
  | node k _ _ _ => k

/-- `board.is_check()` at this node. -/
def FTree.isCheck : FTree → Bool
  | node _ c _ _ => c

/-- `self.evaluator.evaluate(board)` at this node. -/
def FTree.evalScore : FTree → ℚ
  | node _ _ e _ => e

/-- Legal moves with capture flag, `ultra_score_move` value and
successor, in `board.legal_moves` order. -/
def FTree.children : FTree → List (Move × Bool × ℚ × FTree)
  | node _ _ _ cs => cs

/-- The successor reached by pushing a legal move. -/
def childFor (t : FTree) (m : Move) : Option FTree :=
  (t.children.find? fun c => c.1 = m).map fun c => c.2.2.2

/-- `ultra_order_moves` (src/fast_move_order.py lines 133-149): score
every legal move, give each killer a −15000 adjustment (a separate pass
per killer; a python-falsy killer — `None` or a null move — is
skipped), stable-sort ascending. -/
def ultraOrderMoves (t : FTree) (killers : Option (Option Move × Option Move)) : List Move :=
  let scored := t.children.map fun c => (c.2.2.1, c.1)
  let scored1 :=
    match killers with
    | some (k1, k2) =>
      let a :=
        if optTruthy k1 then
          scored.map fun p => if some p.2 = k1 then (p.1 - 15000, p.2) else p
        else scored
      if optTruthy k2 then
        a.map fun p => if some p.2 = k2 then (p.1 - 15000, p.2) else p
      else a
    | none => scored
  (stableSortByKey (fun p => p.1) scored1).map fun p => p.2

/-- State of one `FastWorstSearch` instance: transposition table
(`key → (score, depth)`), killer list, the timeout-poll counter, and
the instrumentation log of used table hits (stored depth, required
depth). -/
structure FastState where
  tt : List (Nat × (ℚ × Nat))
  killers : List (Option Move)
  clock : Nat
  readLog : List (Nat × Nat)

/-- `self.max_tt`. -/
def fastMaxTT : Nat := 200000

/-- `FastWorstSearch._qsearch` (src/fast_search.py lines 104-127):
check evasions in full, otherwise stand-pat improved by captures.  Pure
(no table, no timeout polls, exactly as in the source); `fuel` bounds
the recursion, which python terminates by finiteness of capture chains. -/
def fastQsearch : Nat → FTree → Nat → ℚ
  | 0, _, _ => 0
  | fuel + 1, t, ply =>
    if t.isCheck then
      if t.children.isEmpty then -50000 + (ply : ℚ)
      else
        t.children.foldl
          (fun best c =>
            let score := -(fastQsearch fuel c.2.2.2 (ply + 1))
            if score > best then score else best) (-1000000000)
    else
      (t.children.filter fun c => c.2.1).foldl
        (fun stand c =>
          let score := -(fastQsearch fuel c.2.2.2 (ply + 1))
          if score > stand then score else stand) t.evalScore

/-- `self.killers[0] = move`. -/
def setKiller0 (l : List (Option Move)) (m : Move) : List (Option Move) :=
  match l with
  | [] => []
  | _ :: rest => some m :: rest

/-- The child loop of `FastWorstSearch._negamax` (src/fast_search.py
lines 90-96): push each ordered move, negate the recursive value, keep
the max.  `f` is the recursive `_negamax` at `depth - 1, ply + 1`. -/
def fastChildLoop (f : FTree → FastState → ℚ × FastState) (t : FTree) :
    List Move → FastState → ℚ → ℚ × FastState
  | [], s, best => (best, s)
  | m :: rest, s, best =>
    match childFor t m with
    | some sub =>
      let r := f sub s
      let score := -r.1
      fastChildLoop f t rest r.2 (if score > best then score else best)
    | none => fastChildLoop f t rest s best   -- unreachable: ordered moves index the children

/-- `FastWorstSearch._negamax` (src/fast_search.py lines 72-102):
depth 0 → quiescence; use a table hit only when its stored depth covers
the required depth (the hit is logged); otherwise search the ordered
children and store `(best, depth)` with full-clear eviction. -/
def fastNegamax : Nat → (Nat → Bool) → FTree → Nat → Nat → FastState → ℚ × FastState
  | 0, _, _, _, _, s => (0, s)
  | fuel + 1, sched, t, depth, ply, s =>
    if depth = 0 then (fastQsearch (fuel + 1) t ply, s)
    else
      let key := t.key
      let cont := fun (s : FastState) =>
        if t.children.isEmpty then
          ((if t.isCheck then -50000 + (ply : ℚ) else 15000), s)
        else
          let killer := s.killers.getD ply none
          let ordered := ultraOrderMoves t (some (killer, none))
          let r := fastChildLoop (fun sub st => fastNegamax fuel sched sub (depth - 1) (ply + 1) st)
            t ordered s (-1000000000)
          let tt1 := if r.2.tt.length ≥ fastMaxTT then [] else r.2.tt
          (r.1, { r.2 with tt := dictSet tt1 key (r.1, depth) })
      match dictFind s.tt key with
      | some vd =>
        if vd.2 ≥ depth then (vd.1, { s with readLog := (vd.2, depth) :: s.readLog })
        else cont s
      | none => cont s

/-- The root loop of `FastWorstSearch._root` (src/fast_search.py lines
57-68): timeout poll per move, strict improvement (first-evaluated move
wins ties), killer slot 0 updated on improvement.  Also accumulates the
instrumentation log of `(move, score)` pairs actually evaluated, in
evaluation order. -/
def fastRootLoop (sched : Nat → Bool) (f : FTree → FastState → ℚ × FastState) (t : FTree) :
    List Move → FastState → Option Move → ExtQ → List (Move × ℚ) →
      Option Move × ExtQ × List (Move × ℚ) × FastState
  | [], s, bestM, bestS, log => (bestM, bestS, log, s)
  | m :: rest, s, bestM, bestS, log =>
    if sched s.clock then (bestM, bestS, log, { s with clock := s.clock + 1 })
    else
      let s1 := { s with clock := s.clock + 1 }
      match childFor t m with
      | some sub =>
        let r := f sub s1
        let score := -r.1
        if (ExtQ.fin score).lt bestS then
          fastRootLoop sched f t rest { r.2 with killers := setKiller0 r.2.killers m }
            (some m) (ExtQ.fin score) (log ++ [(m, score)])
        else
          fastRootLoop sched f t rest r.2 bestM bestS (log ++ [(m, score)])
      | none => fastRootLoop sched f t rest s1 bestM bestS log   -- unreachable

/-- `FastWorstSearch._root` (src/fast_search.py lines 50-70). -/
def fastRoot (fuel : Nat) (sched : Nat → Bool) (t : FTree) (depth : Nat) (s : FastState) :
    Option Move × ExtQ × List (Move × ℚ) × FastState :=
  let killer0 := s.killers.getD 0 none
  let ordered := ultraOrderMoves t (some (killer0, none))
  fastRootLoop sched (fun sub st => fastNegamax fuel sched sub (depth - 1) 1 st)
    t ordered s none ExtQ.inf []

/-- The iterative-deepening loop of `FastWorstSearch.search`
(src/fast_search.py lines 40-46): timeout poll per depth; a
python-truthy root move replaces the running best. -/
def fastIDLoop (fuel : Nat) (sched : Nat → Bool) (t : FTree) :
    List Nat → FastState → Option Move → ExtQ → Option Move × ExtQ × FastState
  | [], s, bm, bs => (bm, bs, s)
  | d :: rest, s, bm, bs =>
    if sched s.clock then (bm, bs, { s with clock := s.clock + 1 })
    else
      let s1 := { s with clock := s.clock + 1 }
      let r := fastRoot fuel sched t d s1
      match r.1 with
      | some mv =>
        if mv.truthy then fastIDLoop fuel sched t rest r.2.2.2 (some mv) r.2.1
        else fastIDLoop fuel sched t rest r.2.2.2 bm bs
      | none => fastIDLoop fuel sched t rest r.2.2.2 bm bs

/-- `FastWorstSearch.search` (src/fast_search.py lines 26-48): empty /
singleton shortcuts, then table clear, killer reset and iterative
deepening from 1 to `depth`.  (`self.start_time = time.time()` is the
timeout oracle's base point; the instrumentation log is also reset
here.) -/
def fastSearch (fuel : Nat) (sched : Nat → Bool) (t : FTree) (depth : Nat) (s : FastState) :
    Option Move × ExtQ × FastState :=
  match t.children with
  | [] => (none, ExtQ.fin 0, s)
  | [c] => (some c.1, ExtQ.fin t.evalScore, s)
  | c0 :: _ :: _ =>
    let s1 : FastState :=
      { tt := [], killers := List.replicate (depth + 10) none, clock := s.clock, readLog := [] }
    fastIDLoop fuel sched t (List.range' 1 depth) s1 (some c0.1) ExtQ.inf

/-! ## Transposition-table search — `WorstMoveSearch` (src/search.py)

Game-tree nodes carry the `board.fen()` fingerprint, the check flag,
the `Evaluator.evaluate_position` value (pure in the position, see the
evaluator theorems), the legal moves with capture flags and successors
(`_get_moves_ordered` returns `list(board.legal_moves)` unchanged), and
optionally the successor of pushing `chess.Move.null()` (absent only
for nodes whose null successor the model does not provide; the runs
below never need it).  `TimeoutError` raised by `_check_time` is the
`none` result; fuel exhaustion behaves as an exception as well (the
python analogue is `RecursionError`, likewise swallowed by the root's
per-future handler).  The root's thread pool is serialised in
submission order. -/

inductive SPTree where
  | node (fen : Nat) (isCheck : Bool) (evalScore : ℚ)
      (children : List (Move × Bool × SPTree)) (nullChild : Option SPTree)

/-- `board.fen()` at this node. -/
def SPTree.fen : SPTree → Nat
  | node k _ _ _ _ => k

/-- `board.is_check()` at this node. -/
def SPTree.isCheck : SPTree → Bool
  | node _ c _ _ _ => c

/-- `self.evaluator.evaluate_position(board)` at this node. -/
def SPTree.evalScore : SPTree → ℚ
  | node _ _ e _ _ => e

/-- Legal moves with capture flag and successor, in
`board.legal_moves` order. -/
def SPTree.children : SPTree → List (Move × Bool × SPTree)
  | node _ _ _ cs _ => cs

/-- The successor of `board.push(chess.Move.null())`, when modelled. -/
def SPTree.nullChild : SPTree → Option SPTree
  | node _ _ _ _ n => n

/-- State of one `WorstMoveSearch` instance: the transposition table
(never cleared between calls; `key → score`), the timeout-poll counter,
and instrumentation logs — used table hits as `(key, required depth)`
and stores as `(key, remaining depth when stored)`. -/
structure SPState where
  tt : List (Nat × ExtQ)
  clock : Nat
  readLog : List (Nat × Nat)
  storeLog : List (Nat × Nat)

/-- `self.max_table_size`. -/
def spMaxTableSize : Nat := 1000000

/-- `self.futility_margins`. -/
def spFutilityMargins : List ℚ := [0, 100, 200, 300]

/-- The capture loop of `WorstMoveSearch._quiescence` (src/search.py
lines 205-213), with its beta-cutoff early return.  `f` is the
recursive `_quiescence`. -/
def spQuiescenceLoop (f : SPTree → ExtQ → ExtQ → ExtQ) (beta : ExtQ) :
    List (Move × Bool × SPTree) → ExtQ → ExtQ
  | [], alpha => alpha
  | c :: rest, alpha =>
    let score := (f c.2.2 beta.neg alpha.neg).neg
    if beta.le score then beta
    else if alpha.lt score then spQuiescenceLoop f beta rest score
    else spQuiescenceLoop f beta rest alpha

/-- `WorstMoveSearch._quiescence` (src/search.py lines 192-215):
stand-pat cutoffs, delta pruning with a queen margin of 9, then the
capture loop.  Pure: no table access and no timeout poll, as in the
source. -/
def spQuiescence : Nat → SPTree → ExtQ → ExtQ → ExtQ
  | 0, _, alpha, _ => alpha
  | fuel + 1, t, alpha, beta =>
    let standPat := ExtQ.fin t.evalScore
    if beta.le standPat then beta
    else
      let alpha1 := if alpha.lt standPat then standPat else alpha
      if beta.le (ExtQ.fin (t.evalScore - 9)) then beta
      else spQuiescenceLoop (spQuiescence fuel) beta (t.children.filter fun c => c.2.1) alpha1

/-- The move loop of `WorstMoveSearch._negamax` (src/search.py lines
163-183): futility skip (parent not in check, depth ≤ 2, value above
−100), late-move reduction on the pushed child, `min` updates of value
and alpha, and the `alpha <= beta` break.  `f` is the recursive
`_negamax` applied at the chosen reduced depth; `none` results
(timeout) propagate. -/
def spMoveLoop (f : Nat → SPTree → ExtQ → ExtQ → SPState → Option ExtQ × SPState)
    (parentCheck : Bool) (depth : Nat) (beta : ExtQ) :
    Nat → List (Move × Bool × SPTree) → ExtQ → ExtQ → SPState → Option ExtQ × SPState
  | _, [], _, value, s => (some value, s)
  | i, c :: rest, alpha, value, s =>
    if depth ≤ 2 ∧ parentCheck = false ∧ (ExtQ.fin (-100)).lt value then
      spMoveLoop f parentCheck depth beta (i + 1) rest alpha value s
    else
      let nd := if i ≥ 4 ∧ depth ≥ 3 ∧ !c.2.2.isCheck then depth - 2 else depth - 1
      match f nd c.2.2 beta.neg alpha.neg s with
      | (none, s1) => (none, s1)
      | (some v, s1) =>
        let currValue := v.neg
        let value1 := ExtQ.min2 value currValue
        let alpha1 := ExtQ.min2 alpha value1
        if alpha1.le beta then (some value1, s1)
        else spMoveLoop f parentCheck depth beta (i + 1) rest alpha1 value1 s1

/-- The tail of `WorstMoveSearch._negamax` after the pruning prologue
(src/search.py lines 152-190): internal iterative reduction (the table
probe counts a falsy stored value — `0.0` — as absent), terminal
no-move scores, the move loop, and the store with full-clear eviction.
`negamaxAt` is the recursive `_negamax` with default `can_null`. -/
def spNegamaxTail (negamaxAt : Nat → SPTree → ExtQ → ExtQ → SPState → Option ExtQ × SPState)
    (t : SPTree) (depth0 : Nat) (alpha beta : ExtQ) (s : SPState) : Option ExtQ × SPState :=
  let probeFalsy : Bool :=
    match dictFind s.tt t.fen with
    | none => true
    | some v => v = ExtQ.fin 0
  let depth := if depth0 ≥ 4 ∧ probeFalsy = true then depth0 - 1 else depth0
  if t.children.isEmpty then
    (some (if t.isCheck then ExtQ.fin (-10000) else ExtQ.fin 0), s)
  else
    match spMoveLoop negamaxAt t.isCheck depth beta 0 t.children alpha ExtQ.inf s with
    | (none, s1) => (none, s1)
    | (some value, s1) =>
      let tt1 := if s1.tt.length ≥ spMaxTableSize then [] else s1.tt
      (some value,
        { s1 with tt := dictSet tt1 t.fen value, storeLog := (t.fen, depth) :: s1.storeLog })

/-- `WorstMoveSearch._negamax` (src/search.py lines 114-190): timeout
poll, unconditional table hit (no stored depth — the hit is logged with
the depth the node required), quiescence at depth 0, razoring, reverse
futility pruning, null-move pruning, then `spNegamaxTail`. -/
def spNegamax : Nat → (Nat → Bool) → Bool → SPTree → Nat → ExtQ → ExtQ → SPState →
    Option ExtQ × SPState
  | 0, _, _, _, _, _, _, s => (none, s)
  | fuel + 1, sched, canNull, t, depth, alpha, beta, s0 =>
    if sched s0.clock then (none, { s0 with clock := s0.clock + 1 })
    else
      let s := { s0 with clock := s0.clock + 1 }
      match dictFind s.tt t.fen with
      | some v => (some v, { s with readLog := (t.fen, depth) :: s.readLog })
      | none =>
        if depth = 0 then (some (spQuiescence (fuel + 1) t alpha beta), s)
        else if depth ≤ 3 ∧ t.isCheck = false ∧
            (ExtQ.fin (t.evalScore + 300 * depth)).le alpha then
          (some (spQuiescence (fuel + 1) t alpha beta), s)
        else if depth ≤ 3 ∧ t.isCheck = false ∧
            beta.le (ExtQ.fin (t.evalScore - spFutilityMargins.getD depth 0)) then
          (some beta, s)
        else
          let tail := spNegamaxTail
            (fun nd sub a b st => spNegamax fuel sched true sub nd a b st) t depth alpha beta
          if canNull ∧ depth ≥ 3 ∧ t.isCheck = false then
            match t.nullChild with
            | some nt =>
              match spNegamax fuel sched false nt (depth - 3) beta.neg alpha.neg s with
              | (none, s1) => (none, s1)
              | (some v, s1) =>
                if beta.le v.neg then (some beta, s1)
                else tail s1
            | none => tail s   -- null successor not modelled; branch skipped
          else tail s

/-- The serialised future loop of `WorstMoveSearch._negamax_root`
(src/search.py lines 83-104): one root child per future, any exception
(including `TimeoutError`) becoming `float("inf")` in the results
list. -/
def spRootResults (f : SPTree → SPState → Option ExtQ × SPState) :
    List (Move × Bool × SPTree) → SPState → List ExtQ × SPState
  | [], s => ([], s)
  | c :: rest, s =>
    let r := f c.2.2 s
    let v := match r.1 with
      | some v => v
      | none => ExtQ.inf
    let rr := spRootResults f rest r.2
    (v :: rr.1, rr.2)

/-- `WorstMoveSearch._negamax_root` (src/search.py lines 75-112):
python's `min(results)` keeps the first minimum of the fold and
`results.index` finds its first occurrence, so ties go to the earliest
root move.  Returns the chosen move, `-worst_score`, the results list
(instrumentation) and the state. -/
def spRoot (fuel : Nat) (sched : Nat → Bool) (t : SPTree) (depth : Nat) (s : SPState) :
    Option Move × ExtQ × List ExtQ × SPState :=
  match t.children with
  | [] => (none, ExtQ.fin 0, [], s)
  | cs =>
    let rr := spRootResults
      (fun sub st => spNegamax fuel sched true sub (depth - 1) ExtQ.ninf ExtQ.inf st) cs s
    match rr.1 with
    | [] => (none, ExtQ.fin 0, [], rr.2)   -- `if not results` — unreachable, one result per move
    | r0 :: restR =>
      let worst := ExtQ.listMin r0 restR
      let idx := rr.1.indexOf worst
      (((cs.get? idx).map fun c => c.1), worst.neg, rr.1, rr.2)

/-- The depth loop of `WorstMoveSearch._iterative_deepening`
(src/search.py lines 48-60): the poll at the top of each iteration
raises `TimeoutError` (flag `true`), which the entry point catches; a
completed root unconditionally replaces `best_move`/`best_value`.  The
model's root never raises, so the `except` arms are dead. -/
def spIDLoop (fuel : Nat) (sched : Nat → Bool) (t : SPTree) :
    List Nat → SPState → Option Move × ExtQ → Bool × (Option Move × ExtQ) × SPState
  | [], s, best => (false, best, s)
  | d :: rest, s, best =>
    if sched s.clock then (true, best, { s with clock := s.clock + 1 })
    else
      let s1 := { s with clock := s.clock + 1 }
      let r := spRoot fuel sched t d s1
      spIDLoop fuel sched t rest r.2.2.2 (r.1, r.2.1)

/-- `WorstMoveSearch._iterative_deepening` (src/search.py lines
44-69), including the first-legal-move fallback when no depth produced
a move (skipped when the loop-top poll raised, since the raise
propagates to the entry point). -/
def spIterativeDeepening (fuel : Nat) (sched : Nat → Bool) (t : SPTree) (maxDepth : Nat)
    (s : SPState) : Bool × (Option Move × ExtQ) × SPState :=
  let r := spIDLoop fuel sched t (List.range' 1 maxDepth) s (none, ExtQ.inf)
  if r.1 then r
  else
    match r.2.1.1 with
    | some _ => r
    | none =>
      match t.children with
      | [] => r
      | c :: _ => (false, (some c.1, ExtQ.fin 0), r.2.2)

/-- `WorstMoveSearch.get_worst_move` (src/search.py lines 28-42): runs
iterative deepening; on the propagated `TimeoutError` it returns
`self.best_move, self.best_value` — exactly the running best the loop
had.  Note: no table clear anywhere on this path; `self.tt` flows in
untouched. -/
def spGetWorstMove (fuel : Nat) (sched : Nat → Bool) (t : SPTree) (maxDepth : Nat)
    (s : SPState) : (Option Move × ExtQ) × SPState :=
  let r := spIterativeDeepening fuel sched t maxDepth s
  (r.2.1, r.2.2)

/-! ## Auxiliary definitions for the statements below -/

/-- One step of the root-loop selection discipline: strict improvement
keeps the earlier move on ties (the `if score < best_score` update of
`_root`). -/
def scanStep (acc : Option Move × ExtQ) (p : Move × ℚ) : Option Move × ExtQ :=
  if (ExtQ.fin p.2).lt acc.2 then (some p.1, ExtQ.fin p.2) else acc

/-- The selection the root loop realises over its evaluation log. -/
def rootScan (log : List (Move × ℚ)) : Option Move × ExtQ :=
  log.foldl scanStep (none, ExtQ.inf)

/-- Instrumentation soundness relation between an input and an output
search state: every logged table-hit use either was already logged or
respects the depth guard (stored depth ≥ required depth). -/
def ttReadOK (s s' : FastState) : Prop :=
  ∀ p ∈ s'.readLog, p ∈ s.readLog ∨ p.1 ≥ p.2

/-- A position in which the side to move — Black — is checkmated
(e.g. the scholar's-mate position
`r1bqkb1r/pppp1Qpp/2n2n2/4p3/2B1P3/8/PPPP1PPP/RNB1K1NR b KQkq - 0 4`):
`board.is_checkmate()` holds and `board.turn` is `chess.BLACK`.  The
heuristic terms are irrelevant (the terminal branch returns first). -/
def blackMatedBoard : EBoard where
  isCheckmate := true
  isStalemate := false
  canClaimThreefold := false
  isRepetition := false
  canClaimDraw := false
  turn := false
  fen := 0
  materialBB := 0
  mobilityBB := 0
  hangingPenalty := 0
  kingDanger := 0
  badPawnStructure := 0
  centerControl := 0
  undeveloped := 0
  kingInCenterPenalty := 0
  piecesOnBackRank := 0
  weakenedKingShield := 0
  piecesOnRim := 0
  theirPiecesOnRim := 0
  queenOnGoodSquare := 0
  rooksOnOpenFile := 0
  blockedPieces := 0
  ourPiecesInCenter := 0
  pinnedBonus := 0
  passedPawnPenalty := 0
  backwardPawnBonus := 0
  bishopPairPenalty := 0
  rookOnSeventh := 0
  pstScore := 0
  inCheckBonus := 0
  trappedPiece := 0
  exposedKing := 0
  noEscape := 0

/-- A stalemate position with White to move (terms irrelevant). -/
def stalemateBoard : EBoard :=
  { blackMatedBoard with isCheckmate := false, isStalemate := true, turn := true, fen := 1 }

/-- A quiet non-terminal position (all terminal flags false). -/
def quietBoard : EBoard :=
  { blackMatedBoard with isCheckmate := false, turn := true, fen := 2, materialBB := 100 }

/-- A terminal (claimable-draw) `FBoard` for the fast evaluator. -/
def fDrawBoard : FBoard where
  isCheckmate := false
  isStalemate := false
  canClaimDraw := true
  turn := true
  key := 3
  material := 0
  kingPresent := true
  kingAttackers := 0
  kingEscapeBad := 0
  hangingCount := 0
  shieldMissing := 0
  backrankNonKing := 0
  centerNonKing := 0
  rimNonKing := 0
  bishopPair := false
  isCheck := false
  legalCount := 10
  defendersCount := 0

/-- Concrete `search.py` game tree for the table-lifecycle runs: the
root (fen 1) has one legal move leading to node C (fen 100), which has
one quiet reply leading to a leaf (fen 200).  No position is in check,
every static evaluation is 0. -/
def spLeafD : SPTree := .node 200 false 0 [] none

/-- Node C of the concrete `search.py` tree. -/
def spNodeC : SPTree := .node 100 false 0 [(⟨8, 16, none⟩, false, spLeafD)] none

/-- Root of the concrete `search.py` tree. -/
def spRootT : SPTree := .node 1 false 0 [(⟨12, 28, none⟩, false, spNodeC)] none

/-- Concrete `fast_search` tree: two root moves lead to two distinct
positions that share the fingerprint 100 (a transposition), each with
one quiet reply. -/
def fwLeafD : FTree := .node 300 false 5 []

/-- First transposed node of the concrete fast tree. -/
def fwNodeC1 : FTree := .node 100 false 2 [(⟨1, 18, none⟩, false, 0, fwLeafD)]

/-- Second transposed node of the concrete fast tree (same key 100). -/
def fwNodeC2 : FTree := .node 100 false 3 [(⟨6, 21, none⟩, false, 0, fwLeafD)]

/-- Root of the concrete fast tree. -/
def fwRootT : FTree :=
  .node 1 false 0
    [(⟨12, 28, none⟩, false, 0, fwNodeC1), (⟨11, 27, none⟩, false, 1, fwNodeC2)]

/-- A concrete position with exactly one legal move (e2e4), every flag
false and every mask empty. -/
def singleMovePosition : Position where
  isCheckmate := false
  isStalemate := false
  canClaimThreefold := false
  isRepetition := false
  isCheck := false
  canClaimDraw := false
  turn := true
  fen := 0
  legal := [⟨12, 28, none⟩]
  pieceAt := fun _ => none
  attackersMask := fun _ _ => 0
  attacksMask := fun _ => 0
  piecesMask := fun _ _ => 0
  occupiedCo := fun _ => 0
  occupied := 0
  isCaptureQ := fun _ => false
  isCastlingQ := fun _ => false

/-- A trivial Board Adapter transition (the concrete runs below never
look at a pushed position). -/
def trivialStep : Step := fun p _ => p

/-! # Theorems

## Facade guarantees (claims C1, C2, part of C4) -/

theorem weFinalize_spec (legal : List Move) (l0 : Move) (last : Option Move)
    (m2 : Option Move) :
    ∃ m, (weFinalize legal l0 last m2).result = some m ∧ (m = l0 ∨ m ∈ legal) := by
  cases m2 with
  | none => exact ⟨l0, rfl, Or.inl rfl⟩
  | some m =>
    by_cases ht : m.truthy = true
    · by_cases hm : m ∈ legal
      · exact ⟨m, by simp [weFinalize, ht, hm], Or.inr hm⟩
      · exact ⟨l0, by simp [weFinalize, ht, hm], Or.inl rfl⟩
    · exact ⟨l0, by simp [weFinalize, ht], Or.inl rfl⟩

theorem weFinalize_invoked (legal : List Move) (l0 : Move) (last : Option Move)
    (m2 : Option Move) : (weFinalize legal l0 last m2).searchInvoked = true := by
  cases m2 with
  | none => rfl
  | some m => simp only [weFinalize]; split_ifs <;> rfl

/-- C1: for every position with at least one legal move,
`WorstEngine.get_worst_move` returns an element of that position's
legal-move set, and it returns `None` exactly when there is no legal
move — for every search outcome (any move/score pair, or any
exception) and every remembered last move. -/
theorem C1_facade_returns_legal_or_none (legal : List Move) (last : Option Move)
    (o : Except Unit (Option Move × ExtQ)) :
    ((weGetWorstMove legal last o).result = none ↔ legal = []) ∧
      (∀ m, (weGetWorstMove legal last o).result = some m → m ∈ legal) := by
  cases legal with
  | nil => cases o <;> simp [weGetWorstMove]
  | cons l0 rest =>
    cases o with
    | error e =>
      refine ⟨by simp [weGetWorstMove], fun m hm => ?_⟩
      simp only [weGetWorstMove] at hm
      cases hm
      exact List.mem_cons_self _ _
    | ok p =>
      obtain ⟨m0, sc⟩ := p
      obtain ⟨m, hm, hmem⟩ :=
        weFinalize_spec (l0 :: rest) l0 last (weShuffleGuard (l0 :: rest) last
          (weValidate (l0 :: rest) l0 m0))
      have hr : (weGetWorstMove (l0 :: rest) last (.ok (m0, sc))).result = some m := hm
      refine ⟨by rw [hr]; simp, fun m' hm' => ?_⟩
      rw [hr] at hm'
      cases hm'
      rcases hmem with h | h
      · exact h ▸ List.mem_cons_self _ _
      · exact h

/-- C1 witness: a concrete instance of the membership guarantee. -/
theorem C1_witness :
    (⟨12, 28, none⟩ : Move) ∈ ([⟨12, 28, none⟩] : List Move) :=
  (C1_facade_returns_legal_or_none [⟨12, 28, none⟩] none
    (.ok (some ⟨12, 28, none⟩, ExtQ.fin 0))).2 ⟨12, 28, none⟩ (by decide)

/-- C2: every exception reaching the facade's `try` block is caught
and turned into the first legal move in Board-Adapter order — `None`
when no legal move exists; nothing propagates to the caller (the
embedding of the handler is total). -/
theorem C2_facade_catches_exceptions (legal : List Move) (last : Option Move) (e : Unit) :
    (weGetWorstMove legal last (.error e)).result = legal.head? := by
  cases legal <;> simp [weGetWorstMove]

/-- C4 counterexample: a position with exactly one legal move on which
`WorstEngine.get_worst_move` (src/worst_engine.py) nevertheless invokes
`self.search.get_worst_move` — there is no single-move shortcut in that
facade, so "without invoking the deeper search" fails as stated. -/
theorem C4_counterexample :
    (weGetWorstMove [⟨12, 28, none⟩] none
      (.ok (some ⟨12, 28, none⟩, ExtQ.fin 0))).searchInvoked = true := by decide

/-- C4 (amended): with exactly one legal move, every front end returns
that move; `FastWorstSearch.search` and `SearchEngine.get_worst_move`
return it directly without invoking the search (state, table and clock
untouched), while `worst_engine.WorstEngine` still invokes its search
and returns the unique legal move whatever the search outcome. -/
theorem C4_amended_single_move (m : Move) :
    (∀ (last : Option Move) (o : Except Unit (Option Move × ExtQ)),
        (weGetWorstMove [m] last o).result = some m ∧
          (weGetWorstMove [m] last o).searchInvoked = true) ∧
      (∀ (fuel : Nat) (sched : Nat → Bool) (key : Nat) (chk : Bool) (ev : ℚ)
          (c : Move × Bool × ℚ × FTree) (d : Nat) (s : FastState),
        fastSearch fuel sched (.node key chk ev [c]) d s = (some c.1, ExtQ.fin ev, s)) ∧
      (∀ (step : Step) (evalFn : Position → ℚ) (sched : Nat → Bool) (d0 : Nat) (b : Bd)
          (clock : Nat), b.cur.legal = [m] →
        seGetWorstMove step evalFn sched d0 b clock = ⟨some m, b, clock, false⟩) := by
  refine ⟨fun last o => ?_, fun fuel sched key chk ev c d s => rfl,
    fun step evalFn sched d0 b clock h => ?_⟩
  · cases o with
    | error e =>
      exact ⟨rfl, rfl⟩
    | ok p =>
      obtain ⟨m0, sc⟩ := p
      obtain ⟨m', hm', hmem⟩ :=
        weFinalize_spec [m] m last (weShuffleGuard [m] last (weValidate [m] m m0))
      have hminv := weFinalize_invoked [m] m last (weShuffleGuard [m] last (weValidate [m] m m0))
      have : m' = m := by
        rcases hmem with h | h
        · exact h
        · exact List.mem_singleton.mp h
      subst this
      exact ⟨hm', hminv⟩
  · simp only [seGetWorstMove, h]

/-- C4 witness: the `SearchEngine` shortcut applied to a concrete
single-move position. -/
theorem C4_witness :
    seGetWorstMove trivialStep (fun _ => 0) (fun _ => false) 2 ⟨singleMovePosition, []⟩ 0
      = ⟨some ⟨12, 28, none⟩, ⟨singleMovePosition, []⟩, 0, false⟩ :=
  (C4_amended_single_move ⟨12, 28, none⟩).2.2 trivialStep (fun _ => 0) (fun _ => false) 2
    ⟨singleMovePosition, []⟩ 0 rfl

/-! ## Evaluator guarantees (claims C3, C9, C10) -/

theorem dictFind_dictSet_self {V : Type} (d : List (Nat × V)) (k : Nat) (v : V) :
    dictFind (dictSet d k v) k = some v := by
  induction d with
  | nil => simp [dictSet, dictFind]
  | cons hd tl ih =>
    obtain ⟨k', v'⟩ := hd
    by_cases h : k' = k
    · subst h; simp [dictSet, dictFind]
    · simp [dictSet, dictFind, h, ih]

theorem mem_dictSet_cases {V : Type} (d : List (Nat × V)) (k : Nat) (v : V)
    (k' : Nat) (v' : V) (h : (k', v') ∈ dictSet d k v) : (k', v') ∈ d ∨ k' = k := by
  induction d with
  | nil =>
    rw [show dictSet ([] : List (Nat × V)) k v = [(k, v)] from rfl] at h
    have h' := List.mem_singleton.mp h
    exact Or.inr (congrArg Prod.fst h')
  | cons hd tl ih =>
    obtain ⟨k0, v0⟩ := hd
    by_cases hk : k0 = k
    · rw [show dictSet ((k0, v0) :: tl) k v = (k, v) :: tl from by simp [dictSet, hk]] at h
      rcases List.mem_cons.mp h with h | h
      · exact Or.inr (congrArg Prod.fst h)
      · exact Or.inl (List.mem_cons_of_mem _ h)
    · rw [show dictSet ((k0, v0) :: tl) k v = (k0, v0) :: dictSet tl k v from by
        simp [dictSet, hk]] at h
      rcases List.mem_cons.mp h with h | h
      · exact Or.inl (h ▸ List.mem_cons_self _ _)
      · rcases ih h with h' | h'
        · exact Or.inl (List.mem_cons_of_mem _ h')
        · exact Or.inr h'

/-- C3 evidence: on a position where Black — the side to move — is
checkmated, `Evaluator.evaluate_position` returns +50000, a strictly
positive score, although the module's own contract says scores are from
the side-to-move perspective (positive = good for the mover) and the
search's matching terminal score for the mated mover is −50000 + ply;
stalemate does return the positive constant 25000 as specified. -/
theorem C3_black_checkmate_score :
    (evaluatePosition [] blackMatedBoard).1 = 50000 ∧
      (0 : ℚ) < (evaluatePosition [] blackMatedBoard).1 ∧
      (evaluatePosition [] stalemateBoard).1 = 25000 := by
  refine ⟨rfl, ?_, rfl⟩
  have h : (evaluatePosition [] blackMatedBoard).1 = 50000 := rfl
  rw [h]
  norm_num

/-- C9: evaluating the same position twice with the same evaluator
instance yields the same score — unconditionally when the second
evaluation follows the first (warm cache), and after a full cache clear
under the instance invariant that any value the cache already holds
for this position's fingerprint is its heuristic score (true of every
value the evaluator itself stores, since the FEN fingerprint determines
the position and all heuristic terms). -/
theorem C9_evaluate_idempotent (cache : List (Nat × ℚ)) (b : EBoard)
    (hvalid : ∀ v, dictFind cache b.fen = some v → v = heuristicScore b) :
    ((evaluatePosition (evaluatePosition cache b).2 b).1 = (evaluatePosition cache b).1) ∧
      ((evaluatePosition (clearEvalCache (evaluatePosition cache b).2) b).1
        = (evaluatePosition cache b).1) := by
  by_cases h1 : b.isCheckmate = true
  · simp [evaluatePosition, h1]
  by_cases h2 : b.isStalemate = true
  · simp [evaluatePosition, h1, h2]
  by_cases h3 : (b.canClaimThreefold || b.isRepetition) = true
  · simp [evaluatePosition, h1, h2, h3]
  by_cases h4 : b.canClaimDraw = true
  · simp [evaluatePosition, h1, h2, h3, h4]
  cases hf : dictFind cache b.fen with
  | some v =>
    have hv := hvalid v hf
    simp [evaluatePosition, h1, h2, h3, h4, hf, clearEvalCache, dictFind, hv]
  | none =>
    simp [evaluatePosition, h1, h2, h3, h4, hf, clearEvalCache, dictFind,
      dictFind_dictSet_self]

/-- C9 witness: a cold-cache concrete instance. -/
theorem C9_witness :
    ((evaluatePosition (evaluatePosition [] quietBoard).2 quietBoard).1
        = (evaluatePosition [] quietBoard).1) ∧
      ((evaluatePosition (clearEvalCache (evaluatePosition [] quietBoard).2) quietBoard).1
        = (evaluatePosition [] quietBoard).1) :=
  C9_evaluate_idempotent [] quietBoard (fun _ h => nomatch h)

theorem evaluatePosition_mem (cache : List (Nat × ℚ)) (b : EBoard) (k : Nat) (v : ℚ)
    (h : (k, v) ∈ (evaluatePosition cache b).2) :
    (k, v) ∈ cache ∨ (b.terminal = false ∧ k = b.fen) := by
  by_cases h1 : b.isCheckmate = true
  · simp [evaluatePosition, h1] at h; exact Or.inl h
  by_cases h2 : b.isStalemate = true
  · simp [evaluatePosition, h1, h2] at h; exact Or.inl h
  by_cases h3 : (b.canClaimThreefold || b.isRepetition) = true
  · simp [evaluatePosition, h1, h2, h3] at h; exact Or.inl h
  by_cases h4 : b.canClaimDraw = true
  · simp [evaluatePosition, h1, h2, h3, h4] at h; exact Or.inl h
  have e1 : b.isCheckmate = false := by simpa using h1
  have e2 : b.isStalemate = false := by simpa using h2
  have e3 : (b.canClaimThreefold || b.isRepetition) = false := by simpa using h3
  have e4 : b.canClaimDraw = false := by simpa using h4
  have hterm : b.terminal = false := by
    simp [EBoard.terminal, e1, e2, e4]
    simpa using e3
  cases hf : dictFind cache b.fen with
  | some w =>
    simp [evaluatePosition, h1, h2, h3, h4, hf] at h
    exact Or.inl h
  | none =>
    simp only [evaluatePosition, e1, e2, e3, e4, hf, Bool.false_eq_true, if_false] at h
    by_cases hov : cache.length ≥ evalMaxCacheSize
    · simp only [hov, if_pos] at h
      rcases mem_dictSet_cases _ _ _ _ _ h with h' | h'
      · simp at h'
      · exact Or.inr ⟨hterm, h'⟩
    · simp only [hov, if_neg, if_false] at h
      rcases mem_dictSet_cases _ _ _ _ _ h with h' | h'
      · exact Or.inl h'
      · exact Or.inr ⟨hterm, h'⟩

/-- C10: terminal positions bypass the evaluation cache — the result is
the terminal constant, independent of the cache, with the cache state
untouched (no store); consequently every entry in the cache after any
evaluation trace either was already there or was stored under the
fingerprint of a non-terminal position of the trace.  The same bypass
holds for `FastEvaluator.evaluate`. -/
theorem C10_terminal_bypass :
    (∀ (cache : List (Nat × ℚ)) (b : EBoard), b.terminal = true →
        evaluatePosition cache b = ((evaluatePosition [] b).1, cache)) ∧
      (∀ (cache : List (Nat × ℚ)) (bs : List EBoard) (k : Nat) (v : ℚ),
        (k, v) ∈ evalTrace cache bs →
          (k, v) ∈ cache ∨ ∃ b ∈ bs, b.terminal = false ∧ b.fen = k) ∧
      (∀ (cache : List (Nat × ℚ)) (fb : FBoard), fb.terminal = true →
        fastEvaluate cache fb = ((fastEvaluate [] fb).1, cache)) := by
  refine ⟨fun cache b hb => ?_, fun cache bs => ?_, fun cache fb hb => ?_⟩
  · by_cases h1 : b.isCheckmate = true
    · simp [evaluatePosition, h1]
    by_cases h2 : b.isStalemate = true
    · simp [evaluatePosition, h1, h2]
    by_cases h3 : (b.canClaimThreefold || b.isRepetition) = true
    · simp [evaluatePosition, h1, h2, h3]
    have e1 : b.isCheckmate = false := by simpa using h1
    have e2 : b.isStalemate = false := by simpa using h2
    have e3 : (b.canClaimThreefold || b.isRepetition) = false := by simpa using h3
    have h4 : b.canClaimDraw = true := by
      simpa [EBoard.terminal, e1, e2, e3] using hb
    simp [evaluatePosition, h1, h2, h3, h4]
  · induction bs generalizing cache with
    | nil =>
      intro k v h
      exact Or.inl (by simpa [evalTrace] using h)
    | cons b bs ih =>
      intro k v h
      simp only [evalTrace] at h
      rcases ih _ k v h with h' | h'
      · rcases evaluatePosition_mem cache b k v h' with h'' | h''
        · exact Or.inl h''
        · exact Or.inr ⟨b, List.mem_cons_self _ _, h''.1, h''.2.symm⟩
      · obtain ⟨b', hb', hb'2⟩ := h'
        exact Or.inr ⟨b', List.mem_cons_of_mem _ hb', hb'2⟩
  · by_cases h1 : fb.isCheckmate = true
    · simp [fastEvaluate, h1]
    by_cases h2 : fb.isStalemate = true
    · simp [fastEvaluate, h1, h2]
    have e1 : fb.isCheckmate = false := by simpa using h1
    have e2 : fb.isStalemate = false := by simpa using h2
    have h3 : fb.canClaimDraw = true := by
      simpa [FBoard.terminal, e1, e2] using hb
    simp [fastEvaluate, h1, h2, h3]

/-- C10 witness: concrete terminal bypasses and a concrete trace. -/
theorem C10_witness :
    evaluatePosition [(5, 3)] stalemateBoard = ((evaluatePosition [] stalemateBoard).1, [(5, 3)]) ∧
      fastEvaluate [(9, 4)] fDrawBoard = ((fastEvaluate [] fDrawBoard).1, [(9, 4)]) :=
  ⟨C10_terminal_bypass.1 [(5, 3)] stalemateBoard rfl,
    C10_terminal_bypass.2.2 [(9, 4)] fDrawBoard rfl⟩

/-! ## Move-ordering frame property (claim C8) -/

theorem bdPop_bdPush (step : Step) (b : Bd) (m : Move) : bdPop (bdPush step b m) = b := rfl

theorem seeSquare_state (step : Step) (fuel : Nat) (b : Bd) (sq : Nat) (c : Bool) :
    (seeSquare step fuel b sq c).2 = b := by
  induction fuel generalizing b sq c with
  | zero => rfl
  | succ n ih =>
    simp only [seeSquare]
    split
    · rfl
    · simp [ih, bdPop_bdPush]

theorem seeCapture_state (step : Step) (fuel : Nat) (b : Bd) (m : Move) :
    (seeCapture step fuel b m).2 = b := by
  simp only [seeCapture]
  split
  · rfl
  · split
    · simp [seeSquare_state, bdPop_bdPush]
    · rfl

theorem moAllowsMateLoop_state (step : Step) (b : Bd) (l : List Move) :
    (moAllowsMateLoop step b l).2 = b := by
  induction l generalizing b with
  | nil => rfl
  | cons m rest ih =>
    simp only [moAllowsMateLoop]
    split
    · exact bdPop_bdPush step b m
    · rw [bdPop_bdPush] at *
      exact ih b

theorem moScoreMove_state (step : Step) (fuel : Nat) (b : Bd) (m : Move) :
    (moScoreMove step fuel b m).2 = b := by
  simp only [moScoreMove]
  by_cases hc : (bdPush step b m).cur.isCheckmate = true <;>
    simp [hc, moAllowsMateLoop_state, seeCapture_state, bdPop_bdPush]

theorem moScoreAll_state (step : Step) (fuel : Nat) (b : Bd) (l : List Move) :
    (moScoreAll step fuel b l).2 = b := by
  induction l generalizing b with
  | nil => rfl
  | cons m rest ih =>
    simp only [moScoreAll]
    rw [moScoreMove_state]
    exact ih b

theorem moOrderMoves_state (step : Step) (fuel : Nat) (b : Bd)
    (ht : List (Nat × List (Move × ℚ))) (km : Option (Option Move × Option Move)) :
    (moOrderMoves step fuel b ht km).2 = b := by
  simp only [moOrderMoves]
  exact moScoreAll_state step fuel b b.cur.legal

theorem enScoreMove_state (step : Step) (b : Bd) (m : Move) :
    (enScoreMove step b m).2 = b := by
  simp only [enScoreMove]
  split
  · rfl
  · by_cases hc : (bdPush step b m).cur.isCheckmate = true <;> simp [hc, bdPop_bdPush]

theorem enScoreAll_state (step : Step) (b : Bd) (l : List Move) :
    (enScoreAll step b l).2 = b := by
  induction l generalizing b with
  | nil => rfl
  | cons m rest ih =>
    simp only [enScoreAll]
    rw [enScoreMove_state]
    exact ih b

theorem enOrderMoves_state (step : Step) (b : Bd) (k : Option Move) :
    (enOrderMoves step b k).2 = b := by
  simp only [enOrderMoves]
  exact enScoreAll_state step b b.cur.legal

/-- C8: move ordering never leaves the position mutated — for every
Board-Adapter transition, every board state, every move and every
ordering input, `score_move` and `order_moves` (both the
src/move_ordering.py and the src/engine.py versions) return the board
in exactly the state — current position and undo stack — it had before
the call. -/
theorem C8_ordering_restores_board :
    (∀ (step : Step) (fuel : Nat) (b : Bd) (m : Move), (moScoreMove step fuel b m).2 = b) ∧
      (∀ (step : Step) (fuel : Nat) (b : Bd) (ht : List (Nat × List (Move × ℚ)))
        (km : Option (Option Move × Option Move)), (moOrderMoves step fuel b ht km).2 = b) ∧
      (∀ (step : Step) (b : Bd) (m : Move), (enScoreMove step b m).2 = b) ∧
      (∀ (step : Step) (b : Bd) (k : Option Move), (enOrderMoves step b k).2 = b) :=
  ⟨moScoreMove_state, moOrderMoves_state, enScoreMove_state, enOrderMoves_state⟩

/-! ## Transposition-table lifecycle (claim C6) -/

/-- C6 (amended): `FastWorstSearch.search` clears its transposition
table (and killers) at the start of every call, so its result never
depends on table or killer state left by earlier calls;
`WorstMoveSearch.get_worst_move` (src/search.py) performs no such
clear — a call that does no work returns with the incoming table intact
(and, per the counterexample, later calls do read entries stored by
earlier ones). -/
theorem C6_table_lifecycle :
    (∀ (fuel : Nat) (sched : Nat → Bool) (t : FTree) (d : Nat)
        (tt1 tt2 : List (Nat × (ℚ × Nat))) (k1 k2 : List (Option Move)) (clock : Nat)
        (rl1 rl2 : List (Nat × Nat)),
      ((fastSearch fuel sched t d ⟨tt1, k1, clock, rl1⟩).1
          = (fastSearch fuel sched t d ⟨tt2, k2, clock, rl2⟩).1) ∧
        ((fastSearch fuel sched t d ⟨tt1, k1, clock, rl1⟩).2.1
          = (fastSearch fuel sched t d ⟨tt2, k2, clock, rl2⟩).2.1)) ∧
      (∀ (fuel : Nat) (t : SPTree) (d : Nat) (tt : List (Nat × ExtQ)) (clock : Nat)
        (rl sl : List (Nat × Nat)),
      ((spGetWorstMove fuel (fun _ => true) t d ⟨tt, clock, rl, sl⟩).2).tt = tt) := by
  constructor
  · intro fuel sched t d tt1 tt2 k1 k2 clock rl1 rl2
    cases t with
    | node key chk ev cs =>
      match cs with
      | [] => exact ⟨rfl, rfl⟩
      | [c] => exact ⟨rfl, rfl⟩
      | c0 :: c1 :: rest => exact ⟨rfl, rfl⟩
  · intro fuel t d tt clock rl sl
    cases d with
    | zero =>
      cases t with
      | node k chk ev cs nc =>
        match cs with
        | [] => rfl
        | c :: rest => rfl
    | succ n => rfl

/-- C6 counterexample: a two-call trace of `WorstMoveSearch` on a
concrete position.  The first call (depth 3) stores the score of the
position with fingerprint 100; the second call — same search instance,
fresh instrumentation — reads that stored entry: an entry stored during
one call to the search entry point is read during a later call,
refuting "the transposition table is empty at the start of every
top-level search call". -/
theorem C6_counterexample :
    ((100, 1) ∈ (spGetWorstMove 20 (fun _ => false) spRootT 3 ⟨[], 0, [], []⟩).2.storeLog) ∧
      ((100, 0) ∈ (spGetWorstMove 20 (fun _ => false) spRootT 1
        ⟨(spGetWorstMove 20 (fun _ => false) spRootT 3 ⟨[], 0, [], []⟩).2.tt,
          0, [], []⟩).2.readLog) := by
  decide

/-! ## Transposition-table depth guard (claim C7) -/

theorem ttReadOK_refl (s : FastState) : ttReadOK s s := fun _ hp => Or.inl hp

theorem ttReadOK_trans {s1 s2 s3 : FastState} (h12 : ttReadOK s1 s2) (h23 : ttReadOK s2 s3) :
    ttReadOK s1 s3 := by
  intro p hp
  rcases h23 p hp with h | h
  · exact h12 p h
  · exact Or.inr h

theorem ttReadOK_of_eq_readLog {s1 s2 : FastState} (h : s2.readLog = s1.readLog) :
    ttReadOK s1 s2 := fun p hp => Or.inl (h ▸ hp)

theorem fastChildLoop_readOK (f : FTree → FastState → ℚ × FastState)
    (hf : ∀ sub st, ttReadOK st (f sub st).2) (t : FTree) (ms : List Move) (s : FastState)
    (best : ℚ) : ttReadOK s (fastChildLoop f t ms s best).2 := by
  induction ms generalizing s best with
  | nil => exact ttReadOK_refl s
  | cons m rest ih =>
    simp only [fastChildLoop]
    cases hcf : childFor t m with
    | none => exact ih s best
    | some sub => exact ttReadOK_trans (hf sub s) (ih _ _)

theorem fastNegamax_readOK (fuel : Nat) (sched : Nat → Bool) (t : FTree) (depth ply : Nat)
    (s : FastState) : ttReadOK s (fastNegamax fuel sched t depth ply s).2 := by
  induction fuel generalizing t depth ply s with
  | zero => exact ttReadOK_refl s
  | succ n ih =>
    simp only [fastNegamax]
    by_cases hd : depth = 0
    · simp only [hd, if_pos rfl]
      exact ttReadOK_refl s
    · simp only [hd, if_neg, if_false]
      cases hf : dictFind s.tt t.key with
      | some vd =>
        by_cases hge : vd.2 ≥ depth
        · simp only [hge, if_pos]
          intro p hp
          rcases List.mem_cons.mp hp with h | h
          · exact Or.inr (by rw [h]; exact hge)
          · exact Or.inl h
        · simp only [hge, if_neg, if_false]
          by_cases hemp : t.children.isEmpty = true
          · simp [hemp]
            exact ttReadOK_refl s
          · simp only [hemp, Bool.false_eq_true, if_false]
            refine ttReadOK_trans (fastChildLoop_readOK _ (fun sub st => ih sub _ _ st) _ _ _ _)
              (ttReadOK_of_eq_readLog rfl)
      | none =>
        by_cases hemp : t.children.isEmpty = true
        · simp [hemp]
          exact ttReadOK_refl s
        · simp only [hemp, Bool.false_eq_true, if_false]
          refine ttReadOK_trans (fastChildLoop_readOK _ (fun sub st => ih sub _ _ st) _ _ _ _)
            (ttReadOK_of_eq_readLog rfl)

theorem fastRootLoop_readOK (sched : Nat → Bool) (f : FTree → FastState → ℚ × FastState)
    (hf : ∀ sub st, ttReadOK st (f sub st).2) (t : FTree) (ms : List Move) (s : FastState)
    (bm : Option Move) (bs : ExtQ) (log : List (Move × ℚ)) :
    ttReadOK s (fastRootLoop sched f t ms s bm bs log).2.2.2 := by
  induction ms generalizing s bm bs log with
  | nil => exact ttReadOK_refl s
  | cons m rest ih =>
    simp only [fastRootLoop]
    split
    · exact ttReadOK_of_eq_readLog rfl
    · cases hcf : childFor t m with
      | none =>
        simp only [hcf]
        exact ttReadOK_trans (ttReadOK_of_eq_readLog rfl) (ih _ _ _ _)
      | some sub =>
        simp only [hcf]
        have h1 : ttReadOK s { s with clock := s.clock + 1 } := ttReadOK_of_eq_readLog rfl
        have h2 := hf sub { s with clock := s.clock + 1 }
        split
        · have h3 : ttReadOK (f sub { s with clock := s.clock + 1 }).2
              { (f sub { s with clock := s.clock + 1 }).2 with
                killers := setKiller0 (f sub { s with clock := s.clock + 1 }).2.killers m } :=
            ttReadOK_of_eq_readLog rfl
          exact ttReadOK_trans h1 (ttReadOK_trans h2 (ttReadOK_trans h3 (ih _ _ _ _)))
        · exact ttReadOK_trans h1 (ttReadOK_trans h2 (ih _ _ _ _))

theorem fastRoot_readOK (fuel : Nat) (sched : Nat → Bool) (t : FTree) (d : Nat)
    (s : FastState) : ttReadOK s (fastRoot fuel sched t d s).2.2.2 := by
  simp only [fastRoot]
  exact fastRootLoop_readOK sched _ (fun sub st => fastNegamax_readOK fuel sched sub _ _ st)
    t _ s none ExtQ.inf []

theorem fastIDLoop_readOK (fuel : Nat) (sched : Nat → Bool) (t : FTree) (ds : List Nat)
    (s : FastState) (bm : Option Move) (bs : ExtQ) :
    ttReadOK s (fastIDLoop fuel sched t ds s bm bs).2.2 := by
  induction ds generalizing s bm bs with
  | nil => exact ttReadOK_refl s
  | cons d rest ih =>
    simp only [fastIDLoop]
    by_cases hto : sched s.clock = true
    · simp only [hto, if_pos]
      exact ttReadOK_of_eq_readLog rfl
    · simp only [hto, if_neg, if_false]
      have hroot := fastRoot_readOK fuel sched t d { s with clock := s.clock + 1 }
      cases hm : (fastRoot fuel sched t d { s with clock := s.clock + 1 }).1 with
      | some mv =>
        by_cases htr : mv.truthy = true
        · simp only [hm, htr, if_pos]
          exact ttReadOK_trans (ttReadOK_of_eq_readLog rfl) (ttReadOK_trans hroot (ih _ _ _))
        · simp only [hm, htr, Bool.false_eq_true, if_false]
          exact ttReadOK_trans (ttReadOK_of_eq_readLog rfl) (ttReadOK_trans hroot (ih _ _ _))
      | none =>
        simp only [hm]
        exact ttReadOK_trans (ttReadOK_of_eq_readLog rfl) (ttReadOK_trans hroot (ih _ _ _))

/-- C7 (amended): `FastWorstSearch._negamax` uses a stored
transposition entry as a node result only when the entry's stored depth
is at least the depth the node requires — every logged use in any run
satisfies the guard.  (`WorstMoveSearch._negamax` of src/search.py has
no such guard: its entries carry no depth and any hit is returned
unconditionally, see the counterexample.) -/
theorem C7_fast_depth_guard (fuel : Nat) (sched : Nat → Bool) (t : FTree) (d : Nat)
    (tt : List (Nat × (ℚ × Nat))) (k : List (Option Move)) (clock : Nat) :
    ∀ p ∈ (fastSearch fuel sched t d ⟨tt, k, clock, []⟩).2.2.readLog, p.1 ≥ p.2 := by
  intro p hp
  cases t with
  | node key chk ev cs =>
    match cs, hp with
    | [], hp => cases hp
    | [c], hp => cases hp
    | c0 :: c1 :: rest, hp =>
      have h := fastIDLoop_readOK fuel sched (.node key chk ev (c0 :: c1 :: rest))
        (List.range' 1 d) ⟨[], List.replicate (d + 10) none, clock, []⟩ (some c0.1) ExtQ.inf
      rcases h p hp with h' | h'
      · cases h'
      · exact h'

/-- C7 witness: a concrete fast-search run in which a transposition hit
is used (two root moves transpose to fingerprint 100; the entry stored
at depth 1 is reused at required depth 1; the depth-1 root iteration
times out immediately). -/
theorem C7_fast_witness : (1 : Nat) ≥ 1 :=
  C7_fast_depth_guard 20 (fun n => n = 1) fwRootT 2 [] [] 0 (1, 1) (by decide)

/-- C7 counterexample: a single `WorstMoveSearch.get_worst_move` call
(depth 3) on a concrete position in which the value stored for
fingerprint 100 when the node had remaining depth 1 is later returned
at the same node when depth 2 is required — the stored depth (1) is
below the required depth (2), refuting the claim for src/search.py
(whose table stores no depth at all). -/
theorem C7_counterexample :
    ((100, 1) ∈ (spGetWorstMove 20 (fun _ => false) spRootT 3 ⟨[], 0, [], []⟩).2.storeLog) ∧
      ((100, 2) ∈ (spGetWorstMove 20 (fun _ => false) spRootT 3 ⟨[], 0, [], []⟩).2.readLog) ∧
      2 > 1 := by
  decide

/-! ## Root selection discipline (claim C5) -/

theorem extq_le_refl (a : ExtQ) : a.le a = true := by
  cases a <;> simp [ExtQ.le]

theorem extq_le_trans {a b c : ExtQ} (h1 : a.le b = true) (h2 : b.le c = true) :
    a.le c = true := by
  cases a <;> cases b <;> cases c <;> simp_all [ExtQ.le]
  exact le_trans h1 h2

theorem extq_le_antisymm {a b : ExtQ} (h1 : a.le b = true) (h2 : b.le a = true) : a = b := by
  cases a <;> cases b <;> simp_all [ExtQ.le]
  exact le_antisymm h1 h2

theorem extq_le_total (a b : ExtQ) : a.le b = true ∨ b.le a = true := by
  cases a <;> cases b <;> simp [ExtQ.le]
  exact le_total _ _

theorem extq_lt_iff_not_le {a b : ExtQ} : a.lt b = true ↔ b.le a = false := by
  simp [ExtQ.lt]

theorem extq_lt_fin_fin {a b : ℚ} : (ExtQ.fin a).lt (ExtQ.fin b) = true ↔ a < b := by
  simp [ExtQ.lt, ExtQ.le]

theorem extq_fin_lt_inf (a : ℚ) : (ExtQ.fin a).lt ExtQ.inf = true := rfl

theorem scanStep_foldl_no_improve (rest : List (Move × ℚ)) (acc : Option Move × ExtQ)
    (h : ∀ p ∈ rest, (ExtQ.fin p.2).lt acc.2 = false) :
    rest.foldl scanStep acc = acc := by
  induction rest with
  | nil => rfl
  | cons p r ih =>
    have hp := h p (List.mem_cons_self _ _)
    have hstep : scanStep acc p = acc := by simp [scanStep, hp]
    rw [List.foldl_cons, hstep]
    exact ih fun q hq => h q (List.mem_cons_of_mem _ hq)

theorem scanStep_foldl_firstMin (l : List (Move × ℚ)) (d0 : Move × ℚ) :
    ∀ (acc : Option Move × ExtQ) (i : Nat), i < l.length →
      (∀ j, j < i → (l.getD i d0).2 < (l.getD j d0).2) →
      (∀ j, j < l.length → (l.getD i d0).2 ≤ (l.getD j d0).2) →
      (ExtQ.fin (l.getD i d0).2).lt acc.2 = true →
      l.foldl scanStep acc = (some (l.getD i d0).1, ExtQ.fin (l.getD i d0).2) := by
  induction l with
  | nil =>
    intro acc i hi
    exact absurd hi (by simp)
  | cons p rest ih =>
    intro acc i hi hfirst hmin hacc
    cases i with
    | zero =>
      simp only [List.getD_cons_zero] at hacc hmin ⊢
      have hstep : scanStep acc p = (some p.1, ExtQ.fin p.2) := by
        simp [scanStep, hacc]
      rw [List.foldl_cons, hstep]
      refine scanStep_foldl_no_improve rest _ fun q hq => ?_
      obtain ⟨j, hj, hjq⟩ := List.mem_iff_getElem.mp hq
      have := hmin (j + 1) (by simpa using Nat.succ_lt_succ hj)
      rw [List.getD_cons_succ, List.getD_eq_getElem rest d0 hj, hjq] at this
      have : ¬ (q.2 < p.2) := not_lt.mpr this
      simp only [Bool.eq_false_iff]
      intro hc
      exact this (extq_lt_fin_fin.mp hc)
    | succ k =>
      simp only [List.getD_cons_succ] at hacc hfirst hmin ⊢
      have hp2 : (rest.getD k d0).2 < p.2 := by
        have := hfirst 0 (Nat.succ_pos _)
        simpa [List.getD_cons_zero] using this
      have hacc' : (ExtQ.fin (rest.getD k d0).2).lt (scanStep acc p).2 = true := by
        simp only [scanStep]
        split
        · exact extq_lt_fin_fin.mpr hp2
        · exact hacc
      rw [List.foldl_cons]
      refine ih (scanStep acc p) k (by simpa using Nat.lt_of_succ_lt_succ hi)
        (fun j hj => ?_) (fun j hj => ?_) hacc'
      · have := hfirst (j + 1) (Nat.succ_lt_succ hj)
        simpa [List.getD_cons_succ] using this
      · have := hmin (j + 1) (by simpa using Nat.succ_lt_succ hj)
        simpa [List.getD_cons_succ] using this

theorem fastRootLoop_scan (sched : Nat → Bool) (f : FTree → FastState → ℚ × FastState)
    (t : FTree) :
    ∀ (ms : List Move) (s : FastState) (bm : Option Move) (bs : ExtQ)
      (log : List (Move × ℚ)),
      ∃ newLog, (fastRootLoop sched f t ms s bm bs log).2.2.1 = log ++ newLog ∧
        ((fastRootLoop sched f t ms s bm bs log).1,
            (fastRootLoop sched f t ms s bm bs log).2.1)
          = newLog.foldl scanStep (bm, bs) := by
  intro ms
  induction ms with
  | nil => exact fun s bm bs log => ⟨[], by simp [fastRootLoop], rfl⟩
  | cons m rest ih =>
    intro s bm bs log
    simp only [fastRootLoop]
    split
    · exact ⟨[], by simp, rfl⟩
    · cases hcf : childFor t m with
      | none =>
        simpa only [hcf] using ih _ bm bs log
      | some sub =>
        simp only [hcf]
        split
        · rename_i himp
          obtain ⟨nl, h1, h2⟩ := ih _ (some m)
            (ExtQ.fin (-(f sub { s with clock := s.clock + 1 }).1))
            (log ++ [(m, -(f sub { s with clock := s.clock + 1 }).1)])
          refine ⟨(m, -(f sub { s with clock := s.clock + 1 }).1) :: nl, ?_, ?_⟩
          · rw [h1]
            simp
          · rw [h2, List.foldl_cons]
            congr 1
            simp [scanStep, himp]
        · rename_i himp
          obtain ⟨nl, h1, h2⟩ := ih _ bm bs
            (log ++ [(m, -(f sub { s with clock := s.clock + 1 }).1)])
          refine ⟨(m, -(f sub { s with clock := s.clock + 1 }).1) :: nl, ?_, ?_⟩
          · rw [h1]
            simp
          · rw [h2, List.foldl_cons]
            congr 1
            simp [scanStep, himp]

theorem fastRoot_firstMin (fuel : Nat) (sched : Nat → Bool) (t : FTree) (depth : Nat)
    (s : FastState) (d0 : Move × ℚ) (i : Nat) :
    ((fastRoot fuel sched t depth s).2.2.1 = [] → (fastRoot fuel sched t depth s).1 = none) ∧
      (i < (fastRoot fuel sched t depth s).2.2.1.length →
        (∀ j, j < i → ((fastRoot fuel sched t depth s).2.2.1.getD i d0).2
            < ((fastRoot fuel sched t depth s).2.2.1.getD j d0).2) →
        (∀ j, j < (fastRoot fuel sched t depth s).2.2.1.length →
          ((fastRoot fuel sched t depth s).2.2.1.getD i d0).2
            ≤ ((fastRoot fuel sched t depth s).2.2.1.getD j d0).2) →
        (fastRoot fuel sched t depth s).1
            = some (((fastRoot fuel sched t depth s).2.2.1.getD i d0).1) ∧
          (fastRoot fuel sched t depth s).2.1
            = ExtQ.fin (((fastRoot fuel sched t depth s).2.2.1.getD i d0).2)) := by
  obtain ⟨nl, h1, h2⟩ := fastRootLoop_scan sched
    (fun sub st => fastNegamax fuel sched sub (depth - 1) 1 st) t
    (ultraOrderMoves t (some (s.killers.getD 0 none, none))) s none ExtQ.inf []
  have hlog : (fastRoot fuel sched t depth s).2.2.1 = nl := by
    simpa [fastRoot] using h1
  have hres : ((fastRoot fuel sched t depth s).1, (fastRoot fuel sched t depth s).2.1)
      = nl.foldl scanStep (none, ExtQ.inf) := by
    simpa [fastRoot] using h2
  constructor
  · intro hempty
    rw [hlog] at hempty
    subst hempty
    simpa using congrArg Prod.fst hres
  · intro hi hfirst hmin
    rw [hlog] at hi hfirst hmin
    have := scanStep_foldl_firstMin nl d0 (none, ExtQ.inf) i hi hfirst hmin
      (extq_fin_lt_inf _)
    rw [this] at hres
    rw [hlog]
    exact ⟨congrArg Prod.fst hres, congrArg Prod.snd hres⟩

theorem min2_le_left (a b : ExtQ) : (ExtQ.min2 a b).le a = true := by
  unfold ExtQ.min2
  split
  · exact extq_le_refl a
  · rcases extq_le_total a b with h | h
    · simp_all
    · exact h

theorem min2_le_right (a b : ExtQ) : (ExtQ.min2 a b).le b = true := by
  unfold ExtQ.min2
  split
  · assumption
  · exact extq_le_refl b

theorem min2_cases (a b : ExtQ) : ExtQ.min2 a b = a ∨ ExtQ.min2 a b = b := by
  unfold ExtQ.min2
  split
  · exact Or.inl rfl
  · exact Or.inr rfl

theorem foldl_min2_le (rest : List ExtQ) :
    ∀ acc : ExtQ, ((rest.foldl ExtQ.min2 acc).le acc = true) ∧
      ∀ x ∈ rest, (rest.foldl ExtQ.min2 acc).le x = true := by
  induction rest with
  | nil => exact fun acc => ⟨extq_le_refl acc, by simp⟩
  | cons x r ih =>
    intro acc
    rw [List.foldl_cons]
    obtain ⟨h1, h2⟩ := ih (ExtQ.min2 acc x)
    refine ⟨extq_le_trans h1 (min2_le_left acc x), fun y hy => ?_⟩
    rcases List.mem_cons.mp hy with h | h
    · subst h
      exact extq_le_trans h1 (min2_le_right acc _)
    · exact h2 y h

theorem foldl_min2_mem (rest : List ExtQ) :
    ∀ acc : ExtQ, rest.foldl ExtQ.min2 acc = acc ∨ rest.foldl ExtQ.min2 acc ∈ rest := by
  induction rest with
  | nil => exact fun acc => Or.inl rfl
  | cons x r ih =>
    intro acc
    rw [List.foldl_cons]
    rcases ih (ExtQ.min2 acc x) with h | h
    · rcases min2_cases acc x with h' | h'
      · exact Or.inl (h.trans h')
      · exact Or.inr (by rw [h, h']; exact List.mem_cons_self _ _)
    · exact Or.inr (List.mem_cons_of_mem _ h)

theorem listMin_eq_of_min (r0 : ExtQ) (rest : List ExtQ) (v : ExtQ)
    (hmem : v = r0 ∨ v ∈ rest)
    (hmin : ∀ x, (x = r0 ∨ x ∈ rest) → v.le x = true) :
    ExtQ.listMin r0 rest = v := by
  obtain ⟨h1, h2⟩ := foldl_min2_le rest r0
  have hresv : (ExtQ.listMin r0 rest).le v = true := by
    rcases hmem with h | h
    · exact h ▸ h1
    · exact h2 v h
  have hvres : v.le (ExtQ.listMin r0 rest) = true := by
    rcases foldl_min2_mem rest r0 with h | h
    · exact hmin _ (Or.inl h)
    · exact hmin _ (Or.inr h)
  exact extq_le_antisymm hresv hvres

theorem indexOf_eq_of_getD {α : Type} [DecidableEq α] (d : α) :
    ∀ (l : List α) (i : Nat) (a : α), i < l.length → l.getD i d = a →
      (∀ j, j < i → l.getD j d ≠ a) → l.indexOf a = i := by
  intro l
  induction l with
  | nil =>
    intro i a hi
    exact absurd hi (by simp)
  | cons x xs ih =>
    intro i a hi hget hne
    cases i with
    | zero =>
      exact List.indexOf_cons_eq xs (by simpa using hget)
    | succ k =>
      have hxa : x ≠ a := by
        have := hne 0 (Nat.succ_pos _)
        simpa using this
      rw [List.indexOf_cons_ne xs hxa]
      have : xs.indexOf a = k := by
        refine ih k a (by simpa using Nat.lt_of_succ_lt_succ hi) (by simpa using hget)
          fun j hj => ?_
        have := hne (j + 1) (Nat.succ_lt_succ hj)
        simpa using this
      omega

theorem spRootResults_length (f : SPTree → SPState → Option ExtQ × SPState) :
    ∀ (cs : List (Move × Bool × SPTree)) (s : SPState),
      (spRootResults f cs s).1.length = cs.length := by
  intro cs
  induction cs with
  | nil => intro s; rfl
  | cons c rest ih =>
    intro s
    simp [spRootResults, ih]

theorem getD_eq_getElem_of_lt {α : Type} (l : List α) (d : α) {n : Nat} (h : n < l.length) :
    l.getD n d = l[n] := by
  simp [List.getD_eq_getElem?_getD, List.getElem?_eq_getElem h]

theorem spRoot_eq (fuel : Nat) (sched : Nat → Bool) (depth : Nat) (t : SPTree) (s : SPState)
    (c : Move × Bool × SPTree) (crest : List (Move × Bool × SPTree))
    (hcs : t.children = c :: crest) (r0 : ExtQ) (restR : List ExtQ)
    (hres : (spRootResults
        (fun sub st => spNegamax fuel sched true sub (depth - 1) ExtQ.ninf ExtQ.inf st)
        (c :: crest) s).1 = r0 :: restR) :
    spRoot fuel sched t depth s
      = (((c :: crest).get? ((r0 :: restR).indexOf (ExtQ.listMin r0 restR))).map
            (fun x => x.1),
          (ExtQ.listMin r0 restR).neg, r0 :: restR,
          (spRootResults
            (fun sub st => spNegamax fuel sched true sub (depth - 1) ExtQ.ninf ExtQ.inf st)
            (c :: crest) s).2) := by
  simp only [spRoot, hcs, hres]

theorem spRoot_firstMin (fuel : Nat) (sched : Nat → Bool) (t : SPTree) (depth : Nat)
    (s : SPState) (dc : Move × Bool × SPTree) (dq : ExtQ) (i : Nat)
    (hne : t.children ≠ [])
    (hi : i < (spRoot fuel sched t depth s).2.2.1.length)
    (hfirst : ∀ j, j < i → (spRoot fuel sched t depth s).2.2.1.getD j dq
        ≠ (spRoot fuel sched t depth s).2.2.1.getD i dq)
    (hmin : ∀ j, j < (spRoot fuel sched t depth s).2.2.1.length →
      ((spRoot fuel sched t depth s).2.2.1.getD i dq).le
        ((spRoot fuel sched t depth s).2.2.1.getD j dq) = true) :
    (spRoot fuel sched t depth s).1 = some ((t.children.getD i dc).1) ∧
      (spRoot fuel sched t depth s).2.1
        = ((spRoot fuel sched t depth s).2.2.1.getD i dq).neg := by
  cases hcs : t.children with
  | nil => exact absurd hcs hne
  | cons c crest =>
    cases hres : (spRootResults
        (fun sub st => spNegamax fuel sched true sub (depth - 1) ExtQ.ninf ExtQ.inf st)
        (c :: crest) s).1 with
    | nil =>
      have hlen := spRootResults_length
        (fun sub st => spNegamax fuel sched true sub (depth - 1) ExtQ.ninf ExtQ.inf st)
        (c :: crest) s
      rw [hres] at hlen
      simp at hlen
    | cons r0 restR =>
      have hspr := spRoot_eq fuel sched depth t s c crest hcs r0 restR hres
      have h321 : (spRoot fuel sched t depth s).2.2.1 = r0 :: restR := by rw [hspr]
      rw [h321] at hi hfirst hmin
      have hlen := spRootResults_length
        (fun sub st => spNegamax fuel sched true sub (depth - 1) ExtQ.ninf ExtQ.inf st)
        (c :: crest) s
      rw [hres] at hlen
      -- the first minimum of the results list is the value python's min keeps
      have hworst : ExtQ.listMin r0 restR = (r0 :: restR).getD i dq := by
        refine listMin_eq_of_min r0 restR _ ?_ ?_
        · have hmem : (r0 :: restR).getD i dq ∈ r0 :: restR := by
            rw [getD_eq_getElem_of_lt _ _ hi]
            exact List.getElem_mem _
          exact List.mem_cons.mp hmem
        · intro x hx
          have hxmem : x ∈ r0 :: restR := List.mem_cons.mpr hx
          obtain ⟨j, hj, hjx⟩ := List.mem_iff_getElem.mp hxmem
          have := hmin j hj
          rw [getD_eq_getElem_of_lt _ _ hj, hjx] at this
          exact this
      have hidx : (r0 :: restR).indexOf (ExtQ.listMin r0 restR) = i := by
        refine indexOf_eq_of_getD dq (r0 :: restR) i _ hi hworst.symm fun j hj => ?_
        intro hc
        exact hfirst j hj (hc.trans hworst)
      have hilen : i < (c :: crest).length := by
        rw [← hlen]
        exact hi
      constructor
      · rw [hspr]
        simp only [hidx]
        rw [List.get?_eq_getElem?, List.getElem?_eq_getElem hilen]
        rw [getD_eq_getElem_of_lt _ _ hilen]
        rfl
      · rw [hspr, hworst]

/-- C5: within one search call, root moves are evaluated in sequence
and the chosen move is the one with the minimum (worst) score among the
moves evaluated before timeout, ties to the first-evaluated move.
Fast search: for every run of `FastWorstSearch._root` (any tree, table
state, fuel and timeout schedule), if position `i` of the evaluation
log is the first minimum — strictly below every earlier score and no
greater than every score — the returned move and score are exactly the
log's `i`-th entry, and an empty log (immediate timeout) returns no
move.  search.py: for every serialised run of
`WorstMoveSearch._negamax_root`, if `i` is the first position of the
minimal entry of the results list (a timed-out or failed root move
enters as `float("inf")`), the chosen move is the `i`-th root move and
the returned score is the negated minimum. -/
theorem C5_root_first_minimum :
    (∀ (fuel : Nat) (sched : Nat → Bool) (t : FTree) (depth : Nat) (s : FastState)
        (d0 : Move × ℚ) (i : Nat),
      ((fastRoot fuel sched t depth s).2.2.1 = [] →
          (fastRoot fuel sched t depth s).1 = none) ∧
        (i < (fastRoot fuel sched t depth s).2.2.1.length →
          (∀ j, j < i → ((fastRoot fuel sched t depth s).2.2.1.getD i d0).2
              < ((fastRoot fuel sched t depth s).2.2.1.getD j d0).2) →
          (∀ j, j < (fastRoot fuel sched t depth s).2.2.1.length →
            ((fastRoot fuel sched t depth s).2.2.1.getD i d0).2
              ≤ ((fastRoot fuel sched t depth s).2.2.1.getD j d0).2) →
          (fastRoot fuel sched t depth s).1
              = some (((fastRoot fuel sched t depth s).2.2.1.getD i d0).1) ∧
            (fastRoot fuel sched t depth s).2.1
              = ExtQ.fin (((fastRoot fuel sched t depth s).2.2.1.getD i d0).2))) ∧
      (∀ (fuel : Nat) (sched : Nat → Bool) (t : SPTree) (depth : Nat) (s : SPState)
          (dc : Move × Bool × SPTree) (dq : ExtQ) (i : Nat),
        t.children ≠ [] →
        i < (spRoot fuel sched t depth s).2.2.1.length →
        (∀ j, j < i → (spRoot fuel sched t depth s).2.2.1.getD j dq
            ≠ (spRoot fuel sched t depth s).2.2.1.getD i dq) →
        (∀ j, j < (spRoot fuel sched t depth s).2.2.1.length →
          ((spRoot fuel sched t depth s).2.2.1.getD i dq).le
            ((spRoot fuel sched t depth s).2.2.1.getD j dq) = true) →
        (spRoot fuel sched t depth s).1 = some ((t.children.getD i dc).1) ∧
          (spRoot fuel sched t depth s).2.1
            = ((spRoot fuel sched t depth s).2.2.1.getD i dq).neg) :=
  ⟨fastRoot_firstMin, spRoot_firstMin⟩

/-- C5 witness: the concrete fast-root run on `fwRootT` (log
`[(e2e4, -2), (d2d4, -3)]`) applied at its first minimum, index 1. -/
theorem C5_witness :
    (fastRoot 20 (fun _ => false) fwRootT 1 ⟨[], List.replicate 12 none, 0, []⟩).1
        = some (((fastRoot 20 (fun _ => false) fwRootT 1
            ⟨[], List.replicate 12 none, 0, []⟩).2.2.1.getD 1 (⟨0, 0, none⟩, 0)).1) ∧
      (fastRoot 20 (fun _ => false) fwRootT 1 ⟨[], List.replicate 12 none, 0, []⟩).2.1
        = ExtQ.fin (((fastRoot 20 (fun _ => false) fwRootT 1
            ⟨[], List.replicate 12 none, 0, []⟩).2.2.1.getD 1 (⟨0, 0, none⟩, 0)).2) :=
  (C5_root_first_minimum.1 20 (fun _ => false) fwRootT 1
      ⟨[], List.replicate 12 none, 0, []⟩ (⟨0, 0, none⟩, 0) 1).2
    (by decide) (by decide) (by decide)

end Chessless
